import Mathlib

/-!
Verification of the DealBite deal-extraction core (src/main.py).

The Python source is shallowly embedded: strings are Lean `String`s
(manipulated as `List Char`), Python floats are modelled as rationals `ℚ`,
`None` becomes `Option.none`, and the SQLite store is modelled as a list of
rows with the uniqueness constraint checked explicitly.  Python regular
expressions used by the source are embedded as direct executable scanners
with the same leftmost/greedy semantics on the concrete patterns appearing
in the source.
-/

set_option maxRecDepth 100000

namespace DealBite

/-! ## Whitespace normalisation (main.py `normalize`) -/

/-- Whether a character is whitespace (model of Python `str.split()`
whitespace classes restricted to Lean's whitespace characters). -/
def isWS (c : Char) : Bool := c.isWhitespace

/-- Collapse every whitespace run to a single space character.  Together with
`trimWS` this embeds Python `" ".join(s.split()).strip()`. -/
def squeeze : List Char → List Char
  | [] => []
  | [c] => [if isWS c then ' ' else c]
  | c :: d :: rest =>
    if isWS c && isWS d then squeeze (d :: rest)
    else (if isWS c then ' ' else c) :: squeeze (d :: rest)

/-- Drop a trailing run of characters satisfying `p`. -/
def dropTrailP (p : Char → Bool) : List Char → List Char
  | [] => []
  | c :: cs =>
    let r := dropTrailP p cs
    if r.isEmpty then (if p c then [] else [c]) else c :: r

/-- Strip whitespace from both ends (Python `str.strip()`). -/
def trimWS (l : List Char) : List Char := dropTrailP isWS (l.dropWhile isWS)

/-- Character-level body of main.py `normalize`. -/
def normalizeChars (l : List Char) : List Char := trimWS (squeeze l)

/-- main.py `normalize`: `" ".join((s or "").split()).strip()`. -/
def normalize (s : String) : String := ⟨normalizeChars s.data⟩

/-! ## Scoring (main.py `compute_value_score`) -/

/-- Computable floor of a rational, used so that concrete scores evaluate
inside the kernel. -/
def ratFloor (x : ℚ) : ℤ := x.num / (x.den : ℤ)

/-- Model of Python `round(x, 2)` on the rationals (round to 2 decimal
places; ties, which do not occur in the verified statements, round up
rather than to even). -/
def round2 (x : ℚ) : ℚ := ((ratFloor (x * 100 + 1/2) : ℤ) : ℚ) / 100

/-- main.py `compute_value_score`: sentinel 999 for missing/negative price,
base `10/(1+price/5)`, savings boost capped at 3, clamped to `[0,10]`,
rounded to two decimals. -/
def compute_value_score (starting_price : Option ℚ) (estimated_savings : Option ℚ) : ℚ :=
  let price : ℚ :=
    match starting_price with
    | some p => if 0 ≤ p then p else 999
    | none => 999
  let base : ℚ := 10 / (1 + price / 5)
  let boost : ℚ :=
    match estimated_savings with
    | some s => min 3 s
    | none => 0
  let score := base + boost
  let score := if score < 0 then 0 else score
  let score := if score > 10 then 10 else score
  round2 score

/-! ## Price parsing (inline `float(t.replace("$", ""))` in main.py) -/

/-- Numeric value of a digit character. -/
def digVal (c : Char) : Nat := c.toNat - 48

/-- Value of a digit string, most significant digit first. -/
def natOfDigits (l : List Char) : Nat := l.foldl (fun a c => a * 10 + digVal c) 0

/-- Model of Python `float()` restricted to plain decimal literals
(`digits`, `digits.digits`, `.digits`, `digits.`); exponents, signs,
underscores, infinities and surrounding whitespace are not modelled, since
the price tokens of this program never contain them. -/
def parseDecimal (l : List Char) : Option ℚ :=
  let ip := l.takeWhile (· ≠ '.')
  let rest := l.drop ip.length
  match rest with
  | [] => if ip ≠ [] ∧ ip.all Char.isDigit then some (natOfDigits ip) else none
  | _ :: frac =>
    if (ip ≠ [] ∨ frac ≠ []) ∧ ip.all Char.isDigit ∧ frac.all Char.isDigit then
      some ((natOfDigits ip : ℚ) + (natOfDigits frac : ℚ) / (10 ^ frac.length))
    else none

/-- Inline expression `float(t.replace("$", ""))` from main.py: every dollar
sign is removed, then the remainder is parsed as a number; `none` models the
exception branch. -/
def parsePrice (t : String) : Option ℚ := parseDecimal (t.data.filter (· ≠ '$'))

/-! ## main.py `pick_price` -/

/-- main.py `pick_price`: parse every token, keep the successes, return
their minimum (`min` of the parsed list), or `None` when nothing parses. -/
def pick_price (tokens : List String) : Option ℚ :=
  let nums := tokens.filterMap parsePrice
  match nums with
  | [] => none
  | x :: xs => some (xs.foldl min x)

/-! ## main.py `estimate_savings_from_prices` -/

/-- main.py `estimate_savings_from_prices`: parse all tokens, deduplicate
(`set`), sort ascending, and return `round(max - min, 2)` when at least two
distinct values remain, else `None`.  The `starting_price` argument is
accepted and ignored, exactly as in the source. -/
def estimate_savings_from_prices (_starting_price : Option ℚ) (all_prices : List String) :
    Option ℚ :=
  let nums := all_prices.filterMap parsePrice
  let sorted := List.insertionSort (· ≤ ·) nums.dedup
  match sorted with
  | [] => none
  | [_] => none
  | a :: b :: rest => some (round2 ((b :: rest).getLastD a - a))

/-! ## main.py `clean_wendys_title` -/

/-- Generic substring test, Python `pat in s`. -/
def containsSub (pat : List Char) : List Char → Bool
  | [] => pat.isEmpty
  | c :: cs => pat.isPrefixOf (c :: cs) || containsSub pat cs

/-- Case-insensitive literal at the head of `l` (regex `re.I` on a literal
pattern; `pat` is given lower-case). -/
def ciStartsWith (l pat : List Char) : Bool := pat.isPrefixOf (l.map Char.toLower)

/-- Call-to-action literal of the regex `^(Order Now\s*)+`. -/
def orderNowPat : List Char := "order now".data

/-- Tagline literal of the regex `Cover All Cravings\s*`. -/
def coverPat : List Char := "cover all cravings".data

/-- Trigger literal of the bundle special case. -/
def vppPat : List Char := "value price points".data

/-- Strip repeated occurrences of the call-to-action literal plus trailing
whitespace from the front: `re.sub(r"^(Order Now\s*)+", "", t, flags=re.I)`.
The fuel is the input length; every iteration consumes at least nine
characters. -/
def stripOrderNowF : Nat → List Char → List Char
  | 0, l => l
  | fuel+1, l =>
    if ciStartsWith l orderNowPat then
      stripOrderNowF fuel ((l.drop orderNowPat.length).dropWhile isWS)
    else l

def stripOrderNow (l : List Char) : List Char := stripOrderNowF l.length l

/-- Remove every (case-insensitive, left-to-right, non-overlapping)
occurrence of the tagline plus trailing whitespace:
`re.sub(r"Cover All Cravings\s*", "", t, flags=re.I)`.  The fuel is the
input length; every iteration consumes at least one character. -/
def removeCoverF : Nat → List Char → List Char
  | 0, l => l
  | _+1, [] => []
  | fuel+1, c :: cs =>
    if ciStartsWith (c :: cs) coverPat then
      removeCoverF fuel (((c :: cs).drop coverPat.length).dropWhile isWS)
    else c :: removeCoverF fuel cs

def removeCover (l : List Char) : List Char := removeCoverF l.length l

/-- Question-mark promotion: if the text contains `?` and the stripped text
after the first `?` has length at least 18, replace the text by it. -/
def qmarkPromote (t : List Char) : List Char :=
  if t.contains '?' then
    let after := trimWS ((t.dropWhile (· ≠ '?')).drop 1)
    if 18 ≤ after.length then after else t
  else t

/-- The fixed canonical bundle title returned by the special case. -/
def bundleTitle : String :=
  "Biggie Deals price points: $4 Biggie Bites, $6 Biggie Bag, $8 Biggie Bundle"

/-- Condition of the bundle special case:
`"value price points" in t.lower() or ("$4" in t and "$6" in t and "$8" in t)`. -/
def bundleCond (t : List Char) : Bool :=
  containsSub vppPat (t.map Char.toLower) ||
    (containsSub "$4".data t && containsSub "$6".data t && containsSub "$8".data t)

/-- Alternatives of the boilerplate regex
`\b(?:Within|Choice of|includes|customers|available|Each)\b` (the source
passes no `re.I` flag here, so matching is case-sensitive). -/
def boilerplateKeywords : List (List Char) :=
  ["Within", "Choice of", "includes", "customers", "available", "Each"].map String.data

/-- Regex word character `\w` restricted to its ASCII fragment. -/
def isWordChar (c : Char) : Bool := c.isAlphanum || c = '_'

/-- Does a boilerplate keyword, with a word boundary after it, start at this
position?  (All keywords start and end with letters, so `\b` holds exactly
when the neighbouring character is not a word character.) -/
def kwMatchAt (l : List Char) : Bool :=
  boilerplateKeywords.any fun kw =>
    kw.isPrefixOf l &&
      (match l.drop kw.length with
       | [] => true
       | c :: _ => !isWordChar c)

/-- Text before the first boilerplate-keyword match:
`re.split(..., t, maxsplit=1)[0]`.  `prevWord` tracks whether the previous
character is a word character (for the leading `\b`). -/
def splitBBAux (prevWord : Bool) : List Char → List Char
  | [] => []
  | c :: cs =>
    if !prevWord && kwMatchAt (c :: cs) then []
    else c :: splitBBAux (isWordChar c) cs

def splitBB (l : List Char) : List Char := splitBBAux false l

/-- Whether the boilerplate regex matches anywhere (same scan as
`splitBBAux`). -/
def hasBBAux (prevWord : Bool) : List Char → Bool
  | [] => false
  | c :: cs => (!prevWord && kwMatchAt (c :: cs)) || hasBBAux (isWordChar c) cs

def hasBB (l : List Char) : Bool := hasBBAux false l

/-- Characters of the strip set `" -:;,."`. -/
def inStrip (c : Char) : Bool :=
  c = ' ' || c = '-' || c = ':' || c = ';' || c = ',' || c = '.'

/-- Python `t.strip(" -:;,.")`. -/
def stripSet (l : List Char) : List Char := dropTrailP inStrip (l.dropWhile inStrip)

/-- Steps of `clean_wendys_title` before the bundle special-case check. -/
def preSteps (l : List Char) : List Char :=
  qmarkPromote (removeCover (stripOrderNow (normalizeChars l)))

/-- Character-level body of main.py `clean_wendys_title`. -/
def cleanChars (l : List Char) : List Char :=
  let t := preSteps l
  if bundleCond t then bundleTitle.data
  else
    let t := trimWS (splitBB t)
    let t := stripSet t
    if 90 < t.length then dropTrailP inStrip (t.take 90) else t

/-- main.py `clean_wendys_title`. -/
def clean_wendys_title (s : String) : String := ⟨cleanChars s.data⟩

/-- Whether the input takes the bundle special-case branch. -/
def triggersBundle (s : String) : Bool := bundleCond (preSteps s.data)

/-! ### Occurrence predicates and preservation lemmas -/

/-- `pat` occurs contiguously inside `l`. -/
def OccursIn (pat l : List Char) : Prop := ∃ u v, l = u ++ pat ++ v

/-! ### Well-formed whitespace invariant for idempotence -/

/-- Every whitespace character is a plain space. -/
def wsOnlySpace (l : List Char) : Bool := l.all (fun c => !isWS c || c == ' ')

/-- Whitespace-canonical interior: only plain spaces, never two in a row. -/
def Nice (l : List Char) : Prop :=
  wsOnlySpace l = true ∧ containsSub [' ', ' '] l = false

/-! ## main.py `extract_price_phrases` -/

/-- Does the text contain a price token (`$` immediately followed by a
digit, the mandatory part of the pattern `\$\d+(?:\.\d{1,2})?`)? -/
def hasMoneyTok : List Char → Bool
  | [] => false
  | [_] => false
  | a :: b :: r => (a = '$' && b.isDigit) || hasMoneyTok (b :: r)

/-- Split a dot-free run at its rightmost `$`-digit token: the greedy
leading `[^.]*` of the phrase regex backtracks from the right, so the
engine commits to the rightmost `\$\d+` of the run.  Returns
`(before, after)` with `run = before ++ '$' :: after` and `after` starting
with a digit. -/
def lastTokSplit : List Char → Option (List Char × List Char)
  | [] => none
  | c :: cs =>
    match lastTokSplit cs with
    | some (b, a) => some (c :: b, a)
    | none => if c = '$' && (cs.headD ' ').isDigit then some ([], cs) else none

/-- Embedding of `re.findall(r"[^.]*\$\d+(?:\.\d{1,2})?[^.]*", text)`:
leftmost non-overlapping matches, scanning left to right.  A match spans
the dot-free run containing a price token; when the rightmost token's
digits reach the terminating dot and one or two decimals follow it, the
optional fraction group consumes the dot and the match continues to the
next dot.  The fuel is the text length plus one; every iteration consumes
at least one character. -/
def findallF : Nat → List Char → List (List Char)
  | 0, _ => []
  | fuel+1, l =>
    let r := l.takeWhile (· ≠ '.')
    let rest := l.drop r.length
    match lastTokSplit r with
    | none =>
      match rest with
      | [] => []
      | _ :: rest2 => findallF fuel rest2
    | some (_, a) =>
      let ds := a.takeWhile Char.isDigit
      let tail := a.drop ds.length
      match rest with
      | [] => [r]
      | dot :: rest2 =>
        if tail.isEmpty && (rest2.headD ' ').isDigit then
          let fr := (rest2.takeWhile Char.isDigit).take 2
          let rest3 := rest2.drop fr.length
          let tm := rest3.takeWhile (· ≠ '.')
          (r ++ dot :: (fr ++ tm)) :: findallF fuel (rest3.drop tm.length)
        else r :: findallF fuel rest2

/-- All regex matches of the price-phrase pattern. -/
def findallPricePhrases (l : List Char) : List (List Char) := findallF (l.length + 1) l

/-- Python `list(dict.fromkeys(cleaned))`: deduplicate keeping the first
occurrence, preserving order. -/
def dedupFirstAux (seen : List (List Char)) : List (List Char) → List (List Char)
  | [] => []
  | x :: xs => if x ∈ seen then dedupFirstAux seen xs else x :: dedupFirstAux (x :: seen) xs

/-- Normalised, length-filtered candidate phrases (before deduplication). -/
def cleanedPhrases (text : String) : List (List Char) :=
  ((findallPricePhrases text.data).map normalizeChars).filter
    (fun m => 20 ≤ m.length && m.length ≤ 220)

/-- main.py `extract_price_phrases`. -/
def extract_price_phrases (text : String) : List String :=
  (dedupFirstAux [] (cleanedPhrases text)).map (fun l => String.mk l)

/-- Index of the first occurrence of `a`. -/
def firstIdx (a : List Char) : List (List Char) → Nat
  | [] => 0
  | x :: xs => if x = a then 0 else firstIdx a xs + 1

/-! ## Persistence (main.py `ensure_db` / `upsert_deals`) -/

/-- A candidate deal assembled by the scraper. -/
structure DealInput where
  restaurant : String
  market : String
  title : String
  starting_price : Option ℚ
  all_prices : List String
  source_url : String
deriving DecidableEq

/-- A stored row of the `deals` table.  `all_prices` is stored serialized
(`json.dumps`) in SQLite; the serialization is modelled by the list
itself. -/
structure DealRow where
  restaurant : String
  market : String
  title : String
  starting_price : Option ℚ
  all_prices : List String
  source_url : String
  created_at : String
deriving DecidableEq

/-- The `UNIQUE(restaurant, market, title, source_url)` constraint match
(exact, case-sensitive text comparison as in SQLite). -/
def keyMatches (r : DealRow) (restaurant market title source_url : String) : Bool :=
  r.restaurant = restaurant && r.market = market && r.title = title && r.source_url = source_url

/-- One `INSERT OR IGNORE` of the upsert loop: skip empty titles, skip rows
whose uniqueness key already exists, otherwise append the new row. -/
def upsertOne (store : List DealRow) (d : DealInput) (created_at : String) :
    List DealRow × Nat :=
  let title := normalize d.title
  if title = "" then (store, 0)
  else if store.any (fun r => keyMatches r d.restaurant d.market title d.source_url) then
    (store, 0)
  else
    (store ++ [⟨d.restaurant, d.market, title, d.starting_price, d.all_prices,
      d.source_url, created_at⟩], 1)

/-- main.py `upsert_deals`: insert each candidate, counting the newly added
rows; `created_at = now_iso()` is computed once per call and passed in as a
parameter (the wall-clock collaborator). -/
def upsert_deals (store : List DealRow) (deals : List DealInput) (created_at : String) :
    List DealRow × Nat :=
  deals.foldl (fun acc d =>
    let r := upsertOne acc.1 d created_at
    (r.1, acc.2 + r.2)) (store, 0)

/-! ## Scraper and refresh route (main.py `refresh_wendys_scrape`,
`refresh_wendys`) -/

/-- Embedding of `re.findall(r"\$\d+(?:\.\d{1,2})?", s)` (main.py
`money_tokens`): left-to-right non-overlapping matches of a dollar sign,
one or more digits and an optional one-or-two-digit fraction.  The fuel is
the text length plus one. -/
def moneyTokensF : Nat → List Char → List (List Char)
  | 0, _ => []
  | _+1, [] => []
  | fuel+1, c :: cs =>
    if c = '$' && (cs.headD ' ').isDigit then
      let ds := cs.takeWhile Char.isDigit
      let rest := cs.drop ds.length
      match rest with
      | '.' :: r2 =>
        if (r2.headD ' ').isDigit then
          let fr := (r2.takeWhile Char.isDigit).take 2
          ('$' :: ds ++ '.' :: fr) :: moneyTokensF fuel (r2.drop fr.length)
        else ('$' :: ds) :: moneyTokensF fuel rest
      | _ => ('$' :: ds) :: moneyTokensF fuel rest
    else moneyTokensF fuel cs

/-- main.py `money_tokens`. -/
def money_tokens (s : String) : List String :=
  (moneyTokensF (s.data.length + 1) s.data).map (fun l => String.mk l)

/-- Run-local dedup of main.py `refresh_wendys_scrape` keyed on
`(title, tuple(all_prices))`, keeping the first occurrence. -/
def dedupByKey (seen : List (String × List String)) : List DealInput → List DealInput
  | [] => []
  | d :: ds =>
    if (d.title, d.all_prices) ∈ seen then dedupByKey seen ds
    else d :: dedupByKey ((d.title, d.all_prices) :: seen) ds

/-- main.py `refresh_wendys_scrape`, with the page text supplied by the
external fetch collaborator (`requests` + `BeautifulSoup.get_text`): split
the normalised text into price phrases, tokenize and clean each phrase,
discard empty titles, and deduplicate by `(title, all_prices)`. -/
def refresh_wendys_scrape (market : String) (pageText : String) : List DealInput :=
  let text := normalize pageText
  let phrases := extract_price_phrases text
  let deals := phrases.filterMap (fun ph =>
    let prices := money_tokens ph
    let title := clean_wendys_title ph
    if title = "" then none
    else some ⟨"Wendy\x27s", market, title, pick_price prices, prices,
      "https://www.wendys.com/mealdeals"⟩)
  dedupByKey [] deals

/-- The value returned by an API route: either a redirect response or a
count payload. -/
inductive ApiResponse where
  | redirect (url : String) (status : Nat)
  | count (n : Nat)
deriving DecidableEq

/-- main.py route `refresh_wendys` (`POST /refresh/wendys`): scrape, upsert
(the number of added rows is computed and then discarded), and return a 303
redirect to the dashboard. -/
def refresh_wendys (pageText : String) (store : List DealRow) (created_at : String) :
    ApiResponse × List DealRow :=
  let deals := refresh_wendys_scrape "cleveland-oh" pageText
  let res := upsert_deals store deals created_at
  (ApiResponse.redirect "/" 303, res.1)

/-! ## Identity (main.py `make_deal_id`): SHA-256 over the canonical key

`hashlib.sha256` is embedded as an executable SHA-256 over `Nat` words
reduced modulo `2^32`. -/

/-- Reduce to a 32-bit word. -/
def w32 (n : Nat) : Nat := n % 4294967296

/-- 32-bit right rotation. -/
def rotr32 (x n : Nat) : Nat := w32 ((x >>> n) ||| (x <<< (32 - n)))

def shaCh (x y z : Nat) : Nat := (x &&& y) ^^^ ((x ^^^ 4294967295) &&& z)

def shaMaj (x y z : Nat) : Nat := (x &&& y) ^^^ (x &&& z) ^^^ (y &&& z)

def bigSigma0 (x : Nat) : Nat := rotr32 x 2 ^^^ rotr32 x 13 ^^^ rotr32 x 22

def bigSigma1 (x : Nat) : Nat := rotr32 x 6 ^^^ rotr32 x 11 ^^^ rotr32 x 25

def smallSigma0 (x : Nat) : Nat := rotr32 x 7 ^^^ rotr32 x 18 ^^^ (x >>> 3)

def smallSigma1 (x : Nat) : Nat := rotr32 x 17 ^^^ rotr32 x 19 ^^^ (x >>> 10)

/-- The sixty-four SHA-256 round constants (FIPS 180-4: the first 32 bits of
the fractional parts of the cube roots of the first 64 primes), in decimal. -/
def shaK : List Nat :=
  [1116352408, 1899447441, 3049323471, 3921009573, 961987163, 1508970993,
   2453635748, 2870763221, 3624381080, 310598401, 607225278, 1426881987,
   1925078388, 2162078206, 2614888103, 3248222580, 3835390401, 4022224774,
   264347078, 604807628, 770255983, 1249150122, 1555081692, 1996064986,
   2554220882, 2821834349, 2952996808, 3210313671, 3336571891, 3584528711,
   113926993, 338241895, 666307205, 773529912, 1294757372, 1396182291,
   1695183700, 1986661051, 2177026350, 2456956037, 2730485921, 2820302411,
   3259730800, 3345764771, 3516065817, 3600352804, 4094571909, 275423344,
   430227734, 506948616, 659060556, 883997877, 958139571, 1322822218,
   1537002063, 1747873779, 1955562222, 2024104815, 2227730452, 2361852424,
   2428436474, 2756734187, 3204031479, 3329325298]

/-- The eight SHA-256 initial hash values (FIPS 180-4: the first 32 bits of
the fractional parts of the square roots of the first 8 primes), in decimal. -/
def shaH0 : List Nat :=
  [1779033703, 3144134277, 1013904242, 2773480762,
   1359893119, 2600822924, 528734635, 1541459225]

/-- Big-endian bytes of a number, fixed width. -/
def toBytesBE : Nat → Nat → List Nat
  | 0, _ => []
  | k+1, n => toBytesBE k (n / 256) ++ [n % 256]

/-- SHA-256 padding: append `0x80`, zeros, and the 64-bit big-endian bit
length, reaching a multiple of 64 bytes. -/
def shaPad (msg : List Nat) : List Nat :=
  let L := msg.length
  let zeros := (64 + 56 - ((L + 1) % 64)) % 64
  msg ++ 128 :: List.replicate zeros 0 ++ toBytesBE 8 (8 * L)

/-- First sixteen 32-bit big-endian words of a 64-byte block. -/
def bytesToWordsF : Nat → List Nat → List Nat
  | 0, _ => []
  | k+1, b0 :: b1 :: b2 :: b3 :: rest =>
    (((b0 * 256 + b1) * 256 + b2) * 256 + b3) :: bytesToWordsF k rest
  | _+1, _ => []

/-- Message-schedule extension of the sixteen block words to sixty-four. -/
def extendW : Nat → List Nat → List Nat
  | 0, w => w
  | k+1, w =>
    let n := w.length
    let x := w32 (smallSigma1 (w.getD (n-2) 0) + w.getD (n-7) 0 +
      smallSigma0 (w.getD (n-15) 0) + w.getD (n-16) 0)
    extendW k (w ++ [x])

/-- One compression round. -/
def shaRound (st : Nat × Nat × Nat × Nat × Nat × Nat × Nat × Nat) (kw : Nat × Nat) :
    Nat × Nat × Nat × Nat × Nat × Nat × Nat × Nat :=
  let a := st.1
  let b := st.2.1
  let c := st.2.2.1
  let d := st.2.2.2.1
  let e := st.2.2.2.2.1
  let f := st.2.2.2.2.2.1
  let g := st.2.2.2.2.2.2.1
  let h := st.2.2.2.2.2.2.2
  let t1 := w32 (h + bigSigma1 e + shaCh e f g + kw.1 + kw.2)
  let t2 := w32 (bigSigma0 a + shaMaj a b c)
  (w32 (t1 + t2), a, b, c, w32 (d + t1), e, f, g)

/-- Compress one 64-byte block into the running eight-word state. -/
def compressBlock (h : List Nat) (block : List Nat) : List Nat :=
  let w := extendW 48 (bytesToWordsF 16 block)
  let st0 := (h.getD 0 0, h.getD 1 0, h.getD 2 0, h.getD 3 0, h.getD 4 0, h.getD 5 0,
    h.getD 6 0, h.getD 7 0)
  let fin := (shaK.zip w).foldl shaRound st0
  [w32 (h.getD 0 0 + fin.1), w32 (h.getD 1 0 + fin.2.1), w32 (h.getD 2 0 + fin.2.2.1),
   w32 (h.getD 3 0 + fin.2.2.2.1), w32 (h.getD 4 0 + fin.2.2.2.2.1),
   w32 (h.getD 5 0 + fin.2.2.2.2.2.1), w32 (h.getD 6 0 + fin.2.2.2.2.2.2.1),
   w32 (h.getD 7 0 + fin.2.2.2.2.2.2.2)]

/-- Split the padded message into 64-byte blocks. -/
def chunksF : Nat → List Nat → List (List Nat)
  | 0, _ => []
  | _+1, [] => []
  | fuel+1, c :: cs => ((c :: cs).take 64) :: chunksF fuel ((c :: cs).drop 64)

/-- The eight digest words of a byte message. -/
def sha256Words (msgBytes : List Nat) : List Nat :=
  let padded := shaPad msgBytes
  (chunksF (padded.length + 1) padded).foldl compressBlock shaH0

def hexDigitChar (n : Nat) : Char := "0123456789abcdef".data.getD n '0'

/-- Fixed-width lower-case hex rendering. -/
def toHexFixed : Nat → Nat → List Char
  | 0, _ => []
  | k+1, n => toHexFixed k (n / 16) ++ [hexDigitChar (n % 16)]

/-- `hashlib.sha256(...).hexdigest()` as a character list. -/
def sha256hex (msgBytes : List Nat) : List Char :=
  (sha256Words msgBytes).foldr (fun w acc => toHexFixed 8 w ++ acc) []

/-- UTF-8 encoding of one character (`str.encode("utf-8")`). -/
def utf8EncodeChar (c : Char) : List Nat :=
  let n := c.toNat
  if n < 128 then [n]
  else if n < 2048 then [192 + n / 64, 128 + n % 64]
  else if n < 65536 then [224 + n / 4096, 128 + (n / 64) % 64, 128 + n % 64]
  else [240 + n / 262144, 128 + (n / 4096) % 64, 128 + (n / 64) % 64, 128 + n % 64]

def utf8Encode (l : List Char) : List Nat :=
  List.foldr (fun c acc => utf8EncodeChar c ++ acc) [] l

/-- Python `str.lower()` (ASCII model). -/
def pyLower (s : String) : String := String.mk (s.data.map Char.toLower)

/-- Python `str.strip()`. -/
def pyStrip (s : String) : String := String.mk (trimWS s.data)

/-- The canonical string hashed by `make_deal_id`:
`"|".join([restaurant.strip().lower(), market.strip().lower(), title.strip().lower(), source_url.strip().lower()])`. -/
def canonicalOf (restaurant market title source_url : String) : String :=
  String.intercalate "|" [pyLower (pyStrip restaurant), pyLower (pyStrip market),
    pyLower (pyStrip title), pyLower (pyStrip source_url)]

/-- main.py `make_deal_id`: first sixteen hex characters of the SHA-256 of
the canonical key. -/
def make_deal_id (d : DealInput) : String :=
  String.mk ((sha256hex (utf8Encode
    (canonicalOf d.restaurant d.market d.title d.source_url).data)).take 16)

theorem ratFloor_eq (x : ℚ) : ratFloor x = ⌊x⌋ := Rat.floor_def.symm

theorem round2_int (x : ℚ) (n : ℤ) (h1 : (n:ℚ) ≤ x * 100 + 1/2)
    (h2 : x * 100 + 1/2 < (n:ℚ) + 1) : round2 x = (n:ℚ) / 100 := by
  unfold round2
  rw [ratFloor_eq, Int.floor_eq_iff.mpr ⟨h1, by exact_mod_cast h2⟩]

theorem round2_mono {x y : ℚ} (h : x ≤ y) : round2 x ≤ round2 y := by
  unfold round2
  rw [ratFloor_eq, ratFloor_eq]
  have hf : (⌊x * 100 + 1/2⌋ : ℤ) ≤ ⌊y * 100 + 1/2⌋ := by
    apply Int.floor_le_floor
    nlinarith
  have : ((⌊x * 100 + 1/2⌋ : ℤ) : ℚ) ≤ ((⌊y * 100 + 1/2⌋ : ℤ) : ℚ) := by
    exact_mod_cast hf
  linarith

theorem round2_nonneg {x : ℚ} (h : 0 ≤ x) : 0 ≤ round2 x := by
  unfold round2
  rw [ratFloor_eq]
  have h0 : (0 : ℤ) ≤ ⌊x * 100 + 1/2⌋ := by
    apply Int.le_floor.mpr
    push_cast
    linarith
  have : (0 : ℚ) ≤ ((⌊x * 100 + 1/2⌋ : ℤ) : ℚ) := by exact_mod_cast h0
  linarith

theorem round2_le_ten {x : ℚ} (h : x ≤ 10) : round2 x ≤ 10 := by
  unfold round2
  rw [ratFloor_eq]
  have hlt : (⌊x * 100 + 1/2⌋ : ℤ) < 1001 := by
    apply Int.floor_lt.mpr
    push_cast
    linarith
  have hle : (⌊x * 100 + 1/2⌋ : ℤ) ≤ 1000 := by omega
  have : ((⌊x * 100 + 1/2⌋ : ℤ) : ℚ) ≤ 1000 := by exact_mod_cast hle
  linarith

/-- The clamped pre-rounding score is within bounds. -/
theorem clamp_bounds (s : ℚ) :
    0 ≤ (if (if s < 0 then (0:ℚ) else s) > 10 then (10:ℚ) else (if s < 0 then (0:ℚ) else s)) ∧
    (if (if s < 0 then (0:ℚ) else s) > 10 then (10:ℚ) else (if s < 0 then (0:ℚ) else s)) ≤ 10 := by
  split_ifs with h1 h2 h3 <;> constructor <;> linarith

theorem clamp_mono {s t : ℚ} (h : s ≤ t) :
    (if (if s < 0 then (0:ℚ) else s) > 10 then (10:ℚ) else (if s < 0 then (0:ℚ) else s)) ≤
    (if (if t < 0 then (0:ℚ) else t) > 10 then (10:ℚ) else (if t < 0 then (0:ℚ) else t)) := by
  split_ifs <;> linarith

/-- C1: `compute_value_score` always returns a value in `[0, 10]`; for a fixed
savings argument it is monotonically non-increasing in the (present,
non-negative) starting price; for a fixed price it is monotonically
non-decreasing in the (present) estimated savings. -/
theorem compute_value_score_props :
    (∀ (sp es : Option ℚ), 0 ≤ compute_value_score sp es ∧ compute_value_score sp es ≤ 10) ∧
    (∀ (p₁ p₂ : ℚ) (es : Option ℚ), 0 ≤ p₁ → p₁ ≤ p₂ →
      compute_value_score (some p₂) es ≤ compute_value_score (some p₁) es) ∧
    (∀ (sp : Option ℚ) (s₁ s₂ : ℚ), s₁ ≤ s₂ →
      compute_value_score sp (some s₁) ≤ compute_value_score sp (some s₂)) := by
  refine ⟨?_, ?_, ?_⟩
  · intro sp es
    unfold compute_value_score
    constructor
    · exact round2_nonneg (clamp_bounds _).1
    · exact round2_le_ten (clamp_bounds _).2
  · intro p₁ p₂ es h0 h12
    unfold compute_value_score
    apply round2_mono
    apply clamp_mono
    have hb : 10 / (1 + p₂ / 5) ≤ 10 / (1 + p₁ / 5) := by
      have h1 : (0:ℚ) < 1 + p₁ / 5 := by linarith
      have h2 : (0:ℚ) < 1 + p₂ / 5 := by linarith
      apply div_le_div_of_nonneg_left (by norm_num) h1
      linarith
    have e1 : (if 0 ≤ p₁ then p₁ else 999) = p₁ := if_pos h0
    have e2 : (if 0 ≤ p₂ then p₂ else 999) = p₂ := if_pos (le_trans h0 h12)
    simp only [e1, e2]
    exact add_le_add_right hb _
  · intro sp s₁ s₂ h12
    unfold compute_value_score
    apply round2_mono
    apply clamp_mono
    have hm : min (3:ℚ) s₁ ≤ min 3 s₂ := min_le_min le_rfl h12
    exact add_le_add_left hm _

/-- Witness for C1 at concrete inputs. -/
theorem compute_value_score_props_witness :
    compute_value_score (some 6) (some 1) ≤ compute_value_score (some 2) (some 1) ∧
    compute_value_score (some 2) (some 1) ≤ compute_value_score (some 2) (some 5) := by
  constructor
  · exact compute_value_score_props.2.1 2 6 (some 1) (by norm_num) (by norm_num)
  · exact compute_value_score_props.2.2 (some 2) 1 5 (by norm_num)

theorem foldl_min_le_init : ∀ (xs : List ℚ) (x : ℚ), xs.foldl min x ≤ x := by
  intro xs
  induction xs with
  | nil => intro x; exact le_rfl
  | cons c cs ih =>
    intro x
    calc (c :: cs).foldl min x = cs.foldl min (min x c) := rfl
    _ ≤ min x c := ih (min x c)
    _ ≤ x := min_le_left _ _

theorem foldl_min_le_mem : ∀ (xs : List ℚ) (x y : ℚ), y ∈ xs → xs.foldl min x ≤ y := by
  intro xs
  induction xs with
  | nil => intro x y hy; cases hy
  | cons c cs ih =>
    intro x y hy
    rcases List.mem_cons.mp hy with h | h
    · subst h
      calc (y :: cs).foldl min x = cs.foldl min (min x y) := rfl
      _ ≤ min x y := foldl_min_le_init cs _
      _ ≤ y := min_le_right _ _
    · exact ih (min x c) y h

theorem foldl_min_mem : ∀ (xs : List ℚ) (x : ℚ), xs.foldl min x = x ∨ xs.foldl min x ∈ xs := by
  intro xs
  induction xs with
  | nil => intro x; exact Or.inl rfl
  | cons c cs ih =>
    intro x
    rcases ih (min x c) with h | h
    · rcases min_choice x c with hc | hc
      · exact Or.inl (by rw [show (c :: cs).foldl min x = cs.foldl min (min x c) from rfl, h, hc])
      · refine Or.inr (List.mem_cons.mpr (Or.inl ?_))
        rw [show (c :: cs).foldl min x = cs.foldl min (min x c) from rfl, h, hc]
    · exact Or.inr (List.mem_cons.mpr (Or.inr h))

/-- C3: `pick_price` returns `None` when no token parses, and otherwise the
minimum of the parsed values; on `["$8", "$4", "$6"]` it returns `4`. -/
theorem pick_price_spec :
    (∀ ts : List String,
      (ts.filterMap parsePrice = [] → pick_price ts = none) ∧
      (ts.filterMap parsePrice ≠ [] → ∃ m, pick_price ts = some m ∧
        m ∈ ts.filterMap parsePrice ∧ ∀ x ∈ ts.filterMap parsePrice, m ≤ x)) ∧
    pick_price ["$8", "$4", "$6"] = some 4 := by
  constructor
  · intro ts
    constructor
    · intro h
      unfold pick_price
      rw [h]
    · intro h
      unfold pick_price
      rcases he : ts.filterMap parsePrice with _ | ⟨x, xs⟩
      · exact absurd he h
      · refine ⟨xs.foldl min x, rfl, ?_, ?_⟩
        · rcases foldl_min_mem xs x with h1 | h1
          · rw [h1]; exact List.mem_cons_self _ _
          · exact List.mem_cons.mpr (Or.inr h1)
        · intro y hy
          rcases List.mem_cons.mp hy with h1 | h1
          · subst h1; exact foldl_min_le_init xs y
          · exact foldl_min_le_mem xs x y h1
  · decide

/-- Witness for C3 on a list with one malformed token. -/
theorem pick_price_spec_witness :
    ∃ m, pick_price ["$9", "bad", "$2.50"] = some m ∧
      m ∈ ["$9", "bad", "$2.50"].filterMap parsePrice ∧
      ∀ x ∈ ["$9", "bad", "$2.50"].filterMap parsePrice, m ≤ x :=
  (pick_price_spec.1 ["$9", "bad", "$2.50"]).2 (by decide)

theorem getLastD_mem_of_ne_nil : ∀ (l : List ℚ) (d : ℚ), l ≠ [] → l.getLastD d ∈ l := by
  intro l
  induction l with
  | nil => intro d h; exact absurd rfl h
  | cons a as ih =>
    intro d _
    rcases he : as with _ | ⟨b, bs⟩
    · simp [List.getLastD]
    · rw [List.getLastD_cons]
      rw [he] at ih
      exact List.mem_cons.mpr (Or.inr (ih a (by simp)))

theorem le_getLastD_of_sorted :
    ∀ (l : List ℚ) (d : ℚ), List.Sorted (· ≤ ·) l → ∀ x ∈ l, x ≤ l.getLastD d := by
  intro l
  induction l with
  | nil => intro d _ x hx; cases hx
  | cons a as ih =>
    intro d hs x hx
    rw [List.getLastD_cons]
    rcases he : as with _ | ⟨b, bs⟩
    · rw [he] at hx
      rcases List.mem_cons.mp hx with h | h
      · subst h; simp [List.getLastD]
      · cases h
    · rw [← he]
      have has : List.Sorted (· ≤ ·) as := hs.of_cons
      rcases List.mem_cons.mp hx with h | h
      · subst h
        have hb : x ≤ b := (List.sorted_cons.mp hs).1 b (by rw [he]; exact List.mem_cons_self _ _)
        have : b ≤ as.getLastD x := by
          apply ih x has
          rw [he]; exact List.mem_cons_self _ _
        exact le_trans hb this
      · exact ih a has x h

/-- C2: `estimate_savings_from_prices` returns `None` when fewer than two
distinct parsed values exist, and otherwise `round(max - min, 2)` over the
parsed values; `["$4","$8"]` gives `4` and `["$4"]` gives `None`. -/
theorem estimate_savings_spec :
    (∀ (sp : Option ℚ) (ps : List String),
      ((ps.filterMap parsePrice).dedup.length ≤ 1 →
        estimate_savings_from_prices sp ps = none) ∧
      (2 ≤ (ps.filterMap parsePrice).dedup.length →
        ∃ lo hi, lo ∈ ps.filterMap parsePrice ∧ hi ∈ ps.filterMap parsePrice ∧
          (∀ x ∈ ps.filterMap parsePrice, lo ≤ x ∧ x ≤ hi) ∧
          estimate_savings_from_prices sp ps = some (round2 (hi - lo)))) ∧
    estimate_savings_from_prices none ["$4", "$8"] = some 4 ∧
    estimate_savings_from_prices none ["$4"] = none := by
  refine ⟨?_, ?_, by decide⟩
  · intro sp ps
    have hperm : List.Perm (List.insertionSort (· ≤ ·) (ps.filterMap parsePrice).dedup)
        (ps.filterMap parsePrice).dedup := List.perm_insertionSort _ _
    have hsorted : List.Sorted (· ≤ ·)
        (List.insertionSort (· ≤ ·) (ps.filterMap parsePrice).dedup) :=
      List.sorted_insertionSort _ _
    have hlen : (List.insertionSort (· ≤ ·) (ps.filterMap parsePrice).dedup).length =
        (ps.filterMap parsePrice).dedup.length := hperm.length_eq
    have hbody : estimate_savings_from_prices sp ps =
        (match List.insertionSort (· ≤ ·) (ps.filterMap parsePrice).dedup with
        | [] => none
        | [_] => none
        | a :: b :: rest => some (round2 ((b :: rest).getLastD a - a))) := rfl
    constructor
    · intro h
      rw [hbody]
      rcases he : List.insertionSort (· ≤ ·) (ps.filterMap parsePrice).dedup with
        _ | ⟨a, _ | ⟨b, rest⟩⟩
      · rfl
      · rfl
      · exfalso
        rw [he] at hlen
        simp at hlen
        omega
    · intro h
      rw [hbody]
      rcases he : List.insertionSort (· ≤ ·) (ps.filterMap parsePrice).dedup with
        _ | ⟨a, _ | ⟨b, rest⟩⟩
      · rw [he] at hlen; simp at hlen; omega
      · rw [he] at hlen; simp at hlen; omega
      · rw [he] at hperm hsorted
        have hmem : ∀ x, x ∈ a :: b :: rest ↔ x ∈ ps.filterMap parsePrice := by
          intro x
          rw [hperm.mem_iff, List.mem_dedup]
        refine ⟨a, (b :: rest).getLastD a, ?_, ?_, ?_, rfl⟩
        · exact (hmem a).mp (List.mem_cons_self _ _)
        · apply (hmem _).mp
          exact List.mem_cons.mpr (Or.inr (getLastD_mem_of_ne_nil _ a (by simp)))
        · intro x hx
          have hx' : x ∈ a :: b :: rest := (hmem x).mpr hx
          constructor
          · rcases List.mem_cons.mp hx' with h1 | h1
            · subst h1; exact le_rfl
            · exact (List.sorted_cons.mp hsorted).1 x h1
          · rcases List.mem_cons.mp hx' with h1 | h1
            · rw [h1]
              have hb : a ≤ b := (List.sorted_cons.mp hsorted).1 b (by simp)
              have hbl : b ≤ (b :: rest).getLastD a :=
                le_getLastD_of_sorted _ a hsorted.of_cons b (by simp)
              exact le_trans hb hbl
            · exact le_getLastD_of_sorted _ a hsorted.of_cons x h1
  · have h1 : List.filterMap parsePrice ["$4", "$8"] = [4, 8] := rfl
    have hbody : estimate_savings_from_prices none ["$4", "$8"] =
        (match List.insertionSort (· ≤ ·)
            ((["$4", "$8"] : List String).filterMap parsePrice).dedup with
        | [] => none
        | [_] => none
        | a :: b :: rest => some (round2 ((b :: rest).getLastD a - a))) := rfl
    rw [hbody, h1]
    have h2 : ([4, 8] : List ℚ).dedup = [4, 8] := by
      rw [List.dedup_cons_of_not_mem (by norm_num), List.dedup_cons_of_not_mem (by norm_num),
        List.dedup_nil]
    rw [h2]
    have h3 : List.insertionSort (· ≤ ·) ([4, 8] : List ℚ) = [4, 8] := by
      show List.orderedInsert (· ≤ ·) 4 (List.orderedInsert (· ≤ ·) 8 []) = [4, 8]
      show (if (4:ℚ) ≤ 8 then 4 :: [8] else 8 :: List.orderedInsert (· ≤ ·) 4 []) = [4, 8]
      rw [if_pos (by norm_num)]
    rw [h3]
    show some (round2 (([8] : List ℚ).getLastD 4 - 4)) = some 4
    have h4 : (([8] : List ℚ).getLastD 4 - 4) = 4 := by
      show (8 : ℚ) - 4 = 4
      norm_num
    rw [h4]
    have h5 : round2 (4:ℚ) = 4 := by
      rw [round2_int 4 400 (by norm_num) (by norm_num)]
      norm_num
    rw [h5]

/-- Witness for C2 on a three-token list with two distinct values. -/
theorem estimate_savings_spec_witness :
    ∃ lo hi, lo ∈ ["$4", "$7", "$4"].filterMap parsePrice ∧
      hi ∈ ["$4", "$7", "$4"].filterMap parsePrice ∧
      (∀ x ∈ ["$4", "$7", "$4"].filterMap parsePrice, lo ≤ x ∧ x ≤ hi) ∧
      estimate_savings_from_prices none ["$4", "$7", "$4"] = some (round2 (hi - lo)) :=
  ((estimate_savings_spec.1 none ["$4", "$7", "$4"]).2 (by decide))

/-- C10: the result of `estimate_savings_from_prices` does not depend on the
`starting_price` argument. -/
theorem estimate_savings_ignores_starting_price :
    ∀ (sp₁ sp₂ : Option ℚ) (ps : List String),
      estimate_savings_from_prices sp₁ ps = estimate_savings_from_prices sp₂ ps :=
  fun _ _ _ => rfl

theorem occursIn_cons {pat cs : List Char} (c : Char) (h : OccursIn pat cs) :
    OccursIn pat (c :: cs) := by
  obtain ⟨u, v, rfl⟩ := h
  exact ⟨c :: u, v, rfl⟩

theorem occursIn_cons_iff {pat cs : List Char} {c : Char} :
    OccursIn pat (c :: cs) ↔ (∃ t, c :: cs = pat ++ t) ∨ OccursIn pat cs := by
  constructor
  · rintro ⟨u, v, huv⟩
    cases u with
    | nil => exact Or.inl ⟨v, by simpa using huv⟩
    | cons x u' =>
      refine Or.inr ⟨u', v, ?_⟩
      have h2 := huv
      simp at h2
      rw [List.append_assoc]
      exact h2.2
  · rintro (⟨t, ht⟩ | h)
    · exact ⟨[], t, by simpa using ht⟩
    · exact occursIn_cons c h

/-- Characterisation of `List.isPrefixOf` on characters. -/
theorem isPrefixOf_eq_true_iff : ∀ {p l : List Char}, p.isPrefixOf l = true ↔ ∃ t, l = p ++ t := by
  intro p
  induction p with
  | nil => intro l; simp [List.isPrefixOf]
  | cons a as ih =>
    intro l
    cases l with
    | nil =>
      simp only [List.isPrefixOf]
      constructor
      · intro h; cases h
      · rintro ⟨t, ht⟩; cases ht
    | cons b bs =>
      simp only [List.isPrefixOf, Bool.and_eq_true, beq_iff_eq]
      rw [ih]
      constructor
      · rintro ⟨rfl, t, rfl⟩; exact ⟨t, rfl⟩
      · rintro ⟨t, ht⟩
        have h1 : b = a := by simpa using congrArg (List.headD · 'x') ht
        have h2 : bs = as ++ t := by simpa using congrArg List.tail ht
        exact ⟨h1.symm, t, h2⟩

theorem containsSub_iff {pat l : List Char} : containsSub pat l = true ↔ OccursIn pat l := by
  induction l with
  | nil =>
    simp only [containsSub, List.isEmpty_iff]
    constructor
    · rintro rfl; exact ⟨[], [], rfl⟩
    · rintro ⟨u, v, huv⟩
      rcases List.append_eq_nil.mp (List.append_eq_nil.mp huv.symm).1 with ⟨_, h2⟩
      exact h2
  | cons c cs ih =>
    simp only [containsSub, Bool.or_eq_true, ih]
    rw [occursIn_cons_iff, isPrefixOf_eq_true_iff]

theorem occursIn_nonempty {pat l : List Char} (hp : pat ≠ []) (h : OccursIn pat l) : l ≠ [] := by
  obtain ⟨u, v, rfl⟩ := h
  intro hc
  rcases List.append_eq_nil.mp (List.append_eq_nil.mp hc).1 with ⟨_, h2⟩
  exact hp h2

/-- A digit character is not whitespace. -/
theorem digit_not_ws (d : Char) (h : d.isDigit = true) : isWS d = false := by
  cases hw : isWS d
  · rfl
  · exfalso
    have hd : d = ' ' ∨ d = '\t' ∨ d = '\n' ∨ d = '\r' := by
      unfold isWS Char.isWhitespace at hw
      simp only [Bool.or_eq_true, decide_eq_true_eq] at hw
      tauto
    rcases hd with h1 | h1 | h1 | h1 <;> (subst h1; exact absurd h (by decide))

/-- `squeeze` keeps a non-whitespace head in place. -/
theorem squeeze_head {d : Char} (hd : isWS d = false) (rest : List Char) :
    ∃ tl, squeeze (d :: rest) = d :: tl := by
  cases rest with
  | nil => exact ⟨[], by simp [squeeze, hd]⟩
  | cons r rs =>
    refine ⟨squeeze (r :: rs), ?_⟩
    simp [squeeze, hd]

/-- `squeeze` preserves an adjacent pair of non-whitespace characters. -/
theorem occursPair_squeeze {a b : Char} (ha : isWS a = false) (hb : isWS b = false) :
    ∀ l, OccursIn [a, b] l → OccursIn [a, b] (squeeze l) := by
  intro l
  induction l with
  | nil => intro h; exact absurd rfl (occursIn_nonempty (by simp) h)
  | cons c cs ih =>
    intro h
    rcases occursIn_cons_iff.mp h with ⟨t, ht⟩ | h
    · have ht' : c :: cs = a :: b :: t := ht
      rw [ht']
      obtain ⟨tl, htl⟩ := squeeze_head hb t
      have hsq : squeeze (a :: b :: t) = a :: b :: tl := by
        show (if isWS a && isWS b then squeeze (b :: t)
          else (if isWS a then ' ' else a) :: squeeze (b :: t)) = a :: b :: tl
        rw [ha]
        simp [htl]
      exact ⟨[], tl, by rw [hsq]; rfl⟩
    · cases cs with
      | nil => exact absurd rfl (occursIn_nonempty (by simp) h)
      | cons d' rest =>
        have hsq := ih h
        by_cases hcw : (isWS c && isWS d') = true
        · rw [show squeeze (c :: d' :: rest) = squeeze (d' :: rest) by
            simp only [squeeze, hcw, if_true]]
          exact hsq
        · rw [show squeeze (c :: d' :: rest) =
              (if isWS c then ' ' else c) :: squeeze (d' :: rest) by
            simp only [squeeze, Bool.not_eq_true] at hcw ⊢
            rw [hcw]; simp]
          exact occursIn_cons _ hsq

/-- Dropping a prefix free of the leading pair character preserves the
pair. -/
theorem occursPair_drop {a b : Char} :
    ∀ (n : Nat) (l : List Char), OccursIn [a, b] l → (∀ c ∈ l.take n, c ≠ a) →
      OccursIn [a, b] (l.drop n) := by
  intro n
  induction n with
  | zero => intro l h _; simpa using h
  | succ n ih =>
    intro l h hc
    cases l with
    | nil => exact absurd rfl (occursIn_nonempty (by simp) h)
    | cons c cs =>
      rcases occursIn_cons_iff.mp h with ⟨t, ht⟩ | h'
      · have hca : c = a := by simpa using congrArg (List.headD · 'x') ht
        exact absurd hca (hc c (by simp))
      · exact ih cs h' (fun x hx => hc x (by simp [hx]))

/-- `dropWhile` preserves the pair when its first character survives the
predicate. -/
theorem occursPair_dropWhile {a b : Char} {p : Char → Bool} (hpa : p a = false) :
    ∀ l, OccursIn [a, b] l → OccursIn [a, b] (l.dropWhile p) := by
  intro l
  induction l with
  | nil => intro h; exact absurd rfl (occursIn_nonempty (by simp) h)
  | cons c cs ih =>
    intro h
    rcases occursIn_cons_iff.mp h with ⟨t, ht⟩ | h'
    · have hca : c = a := by simpa using congrArg (List.headD · 'x') ht
      subst hca
      rw [List.dropWhile_cons, hpa]
      simpa using h
    · rw [List.dropWhile_cons]
      cases hpc : p c
      · simpa using h
      · exact ih h'

/-- `dropTrailP` keeps a head whose character survives the predicate. -/
theorem dropTrailP_head {p : Char → Bool} {d : Char} (hd : p d = false) (t : List Char) :
    ∃ tl, dropTrailP p (d :: t) = d :: tl := by
  show ∃ tl, (let r := dropTrailP p t;
    if r.isEmpty then (if p d then [] else [d]) else d :: r) = d :: tl
  cases hr : (dropTrailP p t).isEmpty
  · exact ⟨dropTrailP p t, by simp [hr]⟩
  · exact ⟨[], by simp [hr, hd]⟩

/-- `dropTrailP` preserves the pair when its second character survives the
predicate. -/
theorem occursPair_dropTrailP {a b : Char} {p : Char → Bool} (hpb : p b = false) :
    ∀ l, OccursIn [a, b] l → OccursIn [a, b] (dropTrailP p l) := by
  intro l
  induction l with
  | nil => intro h; exact absurd rfl (occursIn_nonempty (by simp) h)
  | cons c cs ih =>
    intro h
    rcases occursIn_cons_iff.mp h with ⟨t, ht⟩ | h'
    · have ht' : c :: cs = a :: b :: t := ht
      rw [ht']
      obtain ⟨tl, htl⟩ := dropTrailP_head hpb t
      have hne : (dropTrailP p (b :: t)).isEmpty = false := by rw [htl]; rfl
      show OccursIn [a, b] (let r := dropTrailP p (b :: t);
        if r.isEmpty then (if p a then [] else [a]) else a :: r)
      simp only [hne, Bool.false_eq_true, if_false]
      rw [htl]
      exact ⟨[], tl, rfl⟩
    · have h2 := ih h'
      have hne : (dropTrailP p cs).isEmpty = false := by
        cases he : dropTrailP p cs
        · exact absurd rfl (occursIn_nonempty (by simp) (he ▸ h2))
        · rfl
      show OccursIn [a, b] (let r := dropTrailP p cs;
        if r.isEmpty then (if p c then [] else [c]) else c :: r)
      simp only [hne, Bool.false_eq_true, if_false]
      exact occursIn_cons _ h2

/-- `normalizeChars` preserves an adjacent pair of non-whitespace
characters. -/
theorem occursPair_normalize {a b : Char} (ha : isWS a = false) (hb : isWS b = false)
    {l : List Char} (h : OccursIn [a, b] l) : OccursIn [a, b] (normalizeChars l) :=
  occursPair_dropTrailP hb _ (occursPair_dropWhile ha _ (occursPair_squeeze ha hb l h))

/-- Characters that case-insensitively match a `$`-free pattern are never
`$`. -/
theorem take_no_dollar_of_ci {l pat : List Char} (hpat : '$' ∉ pat)
    (h : ciStartsWith l pat = true) : ∀ c ∈ l.take pat.length, c ≠ '$' := by
  intro c hc heq
  subst heq
  unfold ciStartsWith at h
  obtain ⟨t, ht⟩ := isPrefixOf_eq_true_iff.mp h
  have hmem : Char.toLower '$' ∈ pat := by
    have h1 : ('$' : Char).toLower ∈ (l.take pat.length).map Char.toLower :=
      List.mem_map_of_mem _ hc
    have h2 : (l.take pat.length).map Char.toLower = (l.map Char.toLower).take pat.length := by
      rw [List.map_take]
    have h3 : (l.map Char.toLower).take pat.length = pat := by
      rw [ht, List.take_left]
    rw [h2, h3] at h1
    exact h1
  have hlow : Char.toLower '$' = '$' := by decide
  rw [hlow] at hmem
  exact hpat hmem

/-- `stripOrderNow` preserves a `$`-led pair. -/
theorem occursPair_stripOrderNowF {b : Char} :
    ∀ (fuel : Nat) (l : List Char), OccursIn ['$', b] l →
      OccursIn ['$', b] (stripOrderNowF fuel l) := by
  intro fuel
  induction fuel with
  | zero => intro l h; exact h
  | succ fuel ih =>
    intro l h
    show OccursIn ['$', b]
      (if ciStartsWith l orderNowPat then
        stripOrderNowF fuel ((l.drop orderNowPat.length).dropWhile isWS)
      else l)
    cases hci : ciStartsWith l orderNowPat
    · simpa using h
    · simp only [if_true]
      apply ih
      apply occursPair_dropWhile (by decide)
      apply occursPair_drop _ _ h
      have : ∀ c ∈ l.take orderNowPat.length, c ≠ '$' :=
        take_no_dollar_of_ci (by decide) hci
      exact this

theorem occursPair_stripOrderNow {b : Char} {l : List Char} (h : OccursIn ['$', b] l) :
    OccursIn ['$', b] (stripOrderNow l) := occursPair_stripOrderNowF _ _ h

/-- `removeCoverF` keeps a head whose lower case differs from `c` (the first
letter of the tagline). -/
theorem removeCoverF_head {d : Char} (hd : Char.toLower d ≠ 'c') :
    ∀ (fuel : Nat) (t : List Char), ∃ tl, removeCoverF fuel (d :: t) = d :: tl := by
  intro fuel t
  cases fuel with
  | zero => exact ⟨t, rfl⟩
  | succ fuel =>
    have hci : ciStartsWith (d :: t) coverPat = false := by
      cases hc : ciStartsWith (d :: t) coverPat
      · rfl
      · exfalso
        unfold ciStartsWith at hc
        have hpre : coverPat.isPrefixOf (Char.toLower d :: t.map Char.toLower) = true := by
          simpa using hc
        obtain ⟨tt, htt⟩ := isPrefixOf_eq_true_iff.mp hpre
        have hhead : Char.toLower d = 'c' := by
          simpa [coverPat] using congrArg (List.headD · 'x') htt
        exact hd hhead
    refine ⟨removeCoverF fuel t, ?_⟩
    show (if ciStartsWith (d :: t) coverPat then
        removeCoverF fuel (((d :: t).drop coverPat.length).dropWhile isWS)
      else d :: removeCoverF fuel t) = d :: removeCoverF fuel t
    rw [hci]
    simp

/-- `removeCoverF` preserves a `$`-led pair whose second character cannot
start the tagline. -/
theorem occursPair_removeCoverF {b : Char} (hb : Char.toLower b ≠ 'c') :
    ∀ (fuel : Nat) (l : List Char), OccursIn ['$', b] l →
      OccursIn ['$', b] (removeCoverF fuel l) := by
  intro fuel
  induction fuel with
  | zero => intro l h; exact h
  | succ fuel ih =>
    intro l h
    cases l with
    | nil => exact absurd rfl (occursIn_nonempty (by simp) h)
    | cons c cs =>
      show OccursIn ['$', b]
        (if ciStartsWith (c :: cs) coverPat then
          removeCoverF fuel (((c :: cs).drop coverPat.length).dropWhile isWS)
        else c :: removeCoverF fuel cs)
      cases hci : ciStartsWith (c :: cs) coverPat
      · simp only [Bool.false_eq_true, if_false]
        rcases occursIn_cons_iff.mp h with ⟨t, ht⟩ | h'
        · have hca : c = '$' := by simpa using congrArg (List.headD · 'x') ht
          have hcs : cs = b :: t := by simpa using congrArg List.tail ht
          rw [hca, hcs]
          obtain ⟨tl, htl⟩ := removeCoverF_head hb fuel t
          rw [htl]
          exact ⟨[], tl, rfl⟩
        · exact occursIn_cons _ (ih cs h')
      · simp only [if_true]
        apply ih
        apply occursPair_dropWhile (by decide)
        apply occursPair_drop _ _ h
        exact take_no_dollar_of_ci (by decide) hci

theorem occursPair_removeCover {b : Char} (hb : Char.toLower b ≠ 'c') {l : List Char}
    (h : OccursIn ['$', b] l) : OccursIn ['$', b] (removeCover l) :=
  occursPair_removeCoverF hb _ _ h

/-! ### Characters of pipeline outputs come from the input (up to spaces) -/

theorem mem_squeeze_sub {c : Char} : ∀ l, c ∈ squeeze l → c ∈ l ∨ c = ' ' := by
  intro l
  induction l with
  | nil => intro h; cases h
  | cons x cs ih =>
    intro h
    cases cs with
    | nil =>
      simp only [squeeze] at h
      rcases List.mem_singleton.mp h with h
      by_cases hx : isWS x = true
      · rw [if_pos hx] at h; exact Or.inr h
      · rw [if_neg hx] at h; exact Or.inl (by simp [h])
    | cons d rest =>
      by_cases hw : (isWS x && isWS d) = true
      · rw [show squeeze (x :: d :: rest) = squeeze (d :: rest) by
          simp only [squeeze, hw, if_true]] at h
        rcases ih h with h1 | h1
        · exact Or.inl (List.mem_cons.mpr (Or.inr h1))
        · exact Or.inr h1
      · rw [show squeeze (x :: d :: rest) =
            (if isWS x then ' ' else x) :: squeeze (d :: rest) by
          simp only [squeeze, Bool.not_eq_true] at hw ⊢
          rw [hw]; simp] at h
        rcases List.mem_cons.mp h with h1 | h1
        · by_cases hx : isWS x = true
          · rw [if_pos hx] at h1; exact Or.inr h1
          · rw [if_neg hx] at h1; exact Or.inl (by simp [h1])
        · rcases ih h1 with h2 | h2
          · exact Or.inl (List.mem_cons.mpr (Or.inr h2))
          · exact Or.inr h2

theorem mem_dropTrailP_sub {c : Char} {p : Char → Bool} :
    ∀ l, c ∈ dropTrailP p l → c ∈ l := by
  intro l
  induction l with
  | nil => intro h; cases h
  | cons x cs ih =>
    intro h
    show c ∈ x :: cs
    by_cases hr : (dropTrailP p cs).isEmpty = true
    · rw [show dropTrailP p (x :: cs) = if p x then [] else [x] by
        show (let r := dropTrailP p cs;
          if r.isEmpty then (if p x then [] else [x]) else x :: r) = _
        simp [hr]] at h
      by_cases hx : p x = true
      · rw [if_pos hx] at h; cases h
      · rw [if_neg hx] at h
        exact List.mem_cons.mpr (Or.inl (List.mem_singleton.mp h))
    · rw [show dropTrailP p (x :: cs) = x :: dropTrailP p cs by
        show (let r := dropTrailP p cs;
          if r.isEmpty then (if p x then [] else [x]) else x :: r) = _
        simp only [Bool.not_eq_true] at hr
        simp [hr]] at h
      rcases List.mem_cons.mp h with h1 | h1
      · exact List.mem_cons.mpr (Or.inl h1)
      · exact List.mem_cons.mpr (Or.inr (ih h1))

theorem mem_dropWhile_sub {c : Char} {p : Char → Bool} :
    ∀ l : List Char, c ∈ l.dropWhile p → c ∈ l := by
  intro l
  induction l with
  | nil => intro h; cases h
  | cons x cs ih =>
    intro h
    rw [List.dropWhile_cons] at h
    by_cases hx : p x = true
    · rw [if_pos hx] at h
      exact List.mem_cons.mpr (Or.inr (ih h))
    · rw [if_neg hx] at h
      exact h

theorem mem_drop_sub {c : Char} : ∀ (n : Nat) (l : List Char), c ∈ l.drop n → c ∈ l := by
  intro n
  induction n with
  | zero => intro l h; simpa using h
  | succ n ih =>
    intro l h
    cases l with
    | nil => cases h
    | cons x cs => exact List.mem_cons.mpr (Or.inr (ih cs h))

theorem mem_normalizeChars_sub {c : Char} {l : List Char} (h : c ∈ normalizeChars l) :
    c ∈ l ∨ c = ' ' :=
  mem_squeeze_sub l (mem_dropWhile_sub _ (mem_dropTrailP_sub _ h))

theorem mem_stripOrderNowF_sub {c : Char} :
    ∀ (fuel : Nat) (l : List Char), c ∈ stripOrderNowF fuel l → c ∈ l := by
  intro fuel
  induction fuel with
  | zero => intro l h; exact h
  | succ fuel ih =>
    intro l h
    show c ∈ l
    by_cases hci : ciStartsWith l orderNowPat = true
    · rw [show stripOrderNowF (fuel+1) l =
          stripOrderNowF fuel ((l.drop orderNowPat.length).dropWhile isWS) by
        show (if ciStartsWith l orderNowPat then _ else l) = _
        rw [hci]; simp] at h
      exact mem_drop_sub _ _ (mem_dropWhile_sub _ (ih _ h))
    · rw [show stripOrderNowF (fuel+1) l = l by
        show (if ciStartsWith l orderNowPat then _ else l) = _
        simp only [Bool.not_eq_true] at hci
        rw [hci]; simp] at h
      exact h

theorem mem_removeCoverF_sub {c : Char} :
    ∀ (fuel : Nat) (l : List Char), c ∈ removeCoverF fuel l → c ∈ l := by
  intro fuel
  induction fuel with
  | zero => intro l h; exact h
  | succ fuel ih =>
    intro l h
    cases l with
    | nil => exact h
    | cons x cs =>
      by_cases hci : ciStartsWith (x :: cs) coverPat = true
      · rw [show removeCoverF (fuel+1) (x :: cs) =
            removeCoverF fuel (((x :: cs).drop coverPat.length).dropWhile isWS) by
          show (if ciStartsWith (x :: cs) coverPat then _ else _) = _
          rw [hci]; simp] at h
        exact mem_drop_sub _ _ (mem_dropWhile_sub _ (ih _ h))
      · rw [show removeCoverF (fuel+1) (x :: cs) = x :: removeCoverF fuel cs by
          show (if ciStartsWith (x :: cs) coverPat then _ else _) = _
          simp only [Bool.not_eq_true] at hci
          rw [hci]; simp] at h
        rcases List.mem_cons.mp h with h1 | h1
        · exact List.mem_cons.mpr (Or.inl h1)
        · exact List.mem_cons.mpr (Or.inr (ih cs h1))

/-- `List.contains` agrees with membership on characters. -/
theorem contains_eq_true_iff {a : Char} {l : List Char} : l.contains a = true ↔ a ∈ l := by
  simp [List.contains, List.elem_iff]

theorem qmarkPromote_of_no_qmark {t : List Char} (h : '?' ∉ t) : qmarkPromote t = t := by
  unfold qmarkPromote
  have hc : t.contains '?' = false := by
    cases hc : t.contains '?'
    · rfl
    · exact absurd (contains_eq_true_iff.mp hc) h
  rw [hc]
  simp

/-- C4 amended: a phrase containing `$4`, `$6` and `$8` and no question mark
is rewritten to the fixed bundle title. -/
theorem clean_title_bundle_amended (s : String)
    (h4 : containsSub "$4".data s.data = true)
    (h6 : containsSub "$6".data s.data = true)
    (h8 : containsSub "$8".data s.data = true)
    (hq : '?' ∉ s.data) :
    clean_wendys_title s = bundleTitle := by
  have pres : ∀ b : Char, isWS b = false → Char.toLower b ≠ 'c' →
      OccursIn ['$', b] s.data → OccursIn ['$', b] (removeCover (stripOrderNow (normalizeChars s.data))) := by
    intro b hbw hbc h
    exact occursPair_removeCover hbc (occursPair_stripOrderNow
      (occursPair_normalize (by decide) hbw h))
  have h4' : OccursIn ['$', '4'] (removeCover (stripOrderNow (normalizeChars s.data))) :=
    pres '4' (by decide) (by decide) (containsSub_iff.mp h4)
  have h6' : OccursIn ['$', '6'] (removeCover (stripOrderNow (normalizeChars s.data))) :=
    pres '6' (by decide) (by decide) (containsSub_iff.mp h6)
  have h8' : OccursIn ['$', '8'] (removeCover (stripOrderNow (normalizeChars s.data))) :=
    pres '8' (by decide) (by decide) (containsSub_iff.mp h8)
  have hq3 : '?' ∉ removeCover (stripOrderNow (normalizeChars s.data)) := by
    intro hmem
    have h1 := mem_stripOrderNowF_sub _ _ (mem_removeCoverF_sub _ _ hmem)
    rcases mem_normalizeChars_sub h1 with h2 | h2
    · exact hq h2
    · cases h2
  have hpre : preSteps s.data = removeCover (stripOrderNow (normalizeChars s.data)) :=
    qmarkPromote_of_no_qmark hq3
  have hbc : bundleCond (preSteps s.data) = true := by
    rw [hpre]
    unfold bundleCond
    have e4 : containsSub "$4".data (removeCover (stripOrderNow (normalizeChars s.data))) = true :=
      containsSub_iff.mpr h4'
    have e6 : containsSub "$6".data (removeCover (stripOrderNow (normalizeChars s.data))) = true :=
      containsSub_iff.mpr h6'
    have e8 : containsSub "$8".data (removeCover (stripOrderNow (normalizeChars s.data))) = true :=
      containsSub_iff.mpr h8'
    rw [e4, e6, e8]
    simp
  show String.mk (cleanChars s.data) = bundleTitle
  have hcc : cleanChars s.data = bundleTitle.data := by
    show (let t := preSteps s.data;
      if bundleCond t then bundleTitle.data
      else
        let t := trimWS (splitBB t)
        let t := stripSet t
        if 90 < t.length then dropTrailP inStrip (t.take 90) else t) = bundleTitle.data
    simp only [hbc, if_true]
  rw [hcc]

/-- Witness for the amended C4 at a concrete phrase. -/
theorem clean_title_bundle_amended_witness :
    clean_wendys_title "Big value meal deals: $4 and $6 and $8 this week only" = bundleTitle :=
  clean_title_bundle_amended "Big value meal deals: $4 and $6 and $8 this week only"
    (by decide) (by decide) (by decide) (by decide)

/-- C4 counterexample: this phrase contains `$4`, `$6` and `$8` but, because
the question-mark promotion runs before the bundle check and replaces the
text with the part after `?`, the result is not the bundle title. -/
theorem clean_title_bundle_cex :
    containsSub "$4".data "$4 $6 $8 deals today right? this trailing headline is long enough".data
        = true ∧
    containsSub "$6".data "$4 $6 $8 deals today right? this trailing headline is long enough".data
        = true ∧
    containsSub "$8".data "$4 $6 $8 deals today right? this trailing headline is long enough".data
        = true ∧
    clean_wendys_title "$4 $6 $8 deals today right? this trailing headline is long enough" ≠
      bundleTitle := by
  refine ⟨by decide, by decide, by decide, by decide⟩

example : clean_wendys_title "Order Now Get the Biggie Bag for just $5 today" =
    "Get the Biggie Bag for just $5 today" := by decide

example : clean_wendys_title "Crispy nuggets $4 and $6 and $8 mix and match" = bundleTitle := by
  decide

example : clean_wendys_title
    "Hungry for value? Biggie Deals offer value price points for all customers" =
    bundleTitle := by decide

example : clean_wendys_title "New deal includes fries for $1 with any purchase you make" =
    "New deal" := by decide

theorem occursIn_trans {p m l : List Char} (h1 : OccursIn p m) (h2 : OccursIn m l) :
    OccursIn p l := by
  obtain ⟨u1, v1, rfl⟩ := h1
  obtain ⟨u2, v2, rfl⟩ := h2
  exact ⟨u2 ++ u1, v1 ++ v2, by simp⟩

theorem occursIn_refl (l : List Char) : OccursIn l l := ⟨[], [], by simp⟩

theorem mem_of_occursIn {c : Char} {m l : List Char} (h : OccursIn m l) (hc : c ∈ m) :
    c ∈ l := by
  obtain ⟨u, v, rfl⟩ := h
  simp [hc]

/-- `Nice` is inherited by contiguous substrings. -/
theorem nice_of_occursIn {m l : List Char} (hl : Nice l) (h : OccursIn m l) : Nice m := by
  constructor
  · have hall : ∀ c ∈ m, (!isWS c || c == ' ') = true := by
      intro c hc
      exact List.all_eq_true.mp hl.1 c (mem_of_occursIn h hc)
    exact List.all_eq_true.mpr hall
  · cases hcs : containsSub [' ', ' '] m
    · rfl
    · exfalso
      have h2 : OccursIn [' ', ' '] l := occursIn_trans (containsSub_iff.mp hcs) h
      have h3 := hl.2
      rw [containsSub_iff.mpr h2] at h3
      simp at h3

theorem occursIn_drop (n : Nat) (l : List Char) : OccursIn (l.drop n) l :=
  ⟨l.take n, [], by simp⟩

theorem occursIn_take (n : Nat) (l : List Char) : OccursIn (l.take n) l :=
  ⟨[], l.drop n, by simp⟩

theorem occursIn_dropWhile (p : Char → Bool) : ∀ l : List Char, OccursIn (l.dropWhile p) l := by
  intro l
  induction l with
  | nil => exact occursIn_refl []
  | cons c cs ih =>
    rw [List.dropWhile_cons]
    by_cases hp : p c = true
    · rw [if_pos hp]
      exact occursIn_cons c ih
    · rw [if_neg hp]
      exact occursIn_refl _

/-- `dropTrailP` returns a prefix of its input. -/
theorem dropTrailP_append (p : Char → Bool) :
    ∀ l : List Char, ∃ v, l = dropTrailP p l ++ v := by
  intro l
  induction l with
  | nil => exact ⟨[], rfl⟩
  | cons c cs ih =>
    show ∃ v, c :: cs = (let r := dropTrailP p cs;
      if r.isEmpty then (if p c then [] else [c]) else c :: r) ++ v
    obtain ⟨v, hv⟩ := ih
    cases hr : (dropTrailP p cs).isEmpty
    · exact ⟨v, by simp only [hr, Bool.false_eq_true, if_false]; rw [List.cons_append, ← hv]⟩
    · by_cases hp : p c = true
      · exact ⟨c :: cs, by simp [hr, hp]⟩
      · refine ⟨v, ?_⟩
        simp only [hr, if_true, hp, Bool.false_eq_true, if_false]
        have he : dropTrailP p cs = [] := List.isEmpty_iff.mp hr
        rw [he] at hv
        simp only [List.nil_append] at hv
        rw [List.singleton_append, hv]

theorem occursIn_dropTrailP (p : Char → Bool) (l : List Char) :
    OccursIn (dropTrailP p l) l := by
  obtain ⟨v, hv⟩ := dropTrailP_append p l
  exact ⟨[], v, by simpa using hv⟩

theorem occursIn_trimWS (l : List Char) : OccursIn (trimWS l) l :=
  occursIn_trans (occursIn_dropTrailP _ _) (occursIn_dropWhile _ l)

theorem occursIn_length_le {p l : List Char} (h : OccursIn p l) : p.length ≤ l.length := by
  obtain ⟨u, v, rfl⟩ := h
  simp only [List.length_append]
  omega

/-- `squeeze` output has only plain spaces as whitespace. -/
theorem squeeze_wsOnly : ∀ l : List Char, wsOnlySpace (squeeze l) = true := by
  intro l
  induction l with
  | nil => rfl
  | cons c cs ih =>
    cases cs with
    | nil =>
      show wsOnlySpace [if isWS c then ' ' else c] = true
      by_cases hc : isWS c = true
      · rw [if_pos hc]; rfl
      · rw [if_neg hc]
        show (!isWS c || c == ' ') && true = true
        rw [Bool.not_eq_true] at hc
        rw [hc]
        rfl
    | cons d rest =>
      by_cases hw : (isWS c && isWS d) = true
      · rw [show squeeze (c :: d :: rest) = squeeze (d :: rest) by
          simp only [squeeze, hw, if_true]]
        exact ih
      · rw [show squeeze (c :: d :: rest) =
            (if isWS c then ' ' else c) :: squeeze (d :: rest) by
          simp only [squeeze, Bool.not_eq_true] at hw ⊢
          rw [hw]; simp]
        show ((!isWS (if isWS c then ' ' else c) || (if isWS c then ' ' else c) == ' ') &&
          wsOnlySpace (squeeze (d :: rest))) = true
        rw [ih]
        by_cases hc : isWS c = true
        · rw [if_pos hc]; rfl
        · rw [if_neg hc]
          rw [Bool.not_eq_true] at hc
          rw [hc]
          rfl

/-- `squeeze` output never contains two adjacent spaces. -/
theorem squeeze_noDbl : ∀ l : List Char, ¬ OccursIn [' ', ' '] (squeeze l) := by
  intro l
  induction l with
  | nil => exact fun h => absurd rfl (occursIn_nonempty (by simp) h)
  | cons c cs ih =>
    cases cs with
    | nil =>
      intro h
      have hlen := occursIn_length_le h
      have hone : (squeeze [c]).length = 1 := by
        show [if isWS c then ' ' else c].length = 1
        rfl
      rw [hone] at hlen
      norm_num at hlen
    | cons d rest =>
      by_cases hw : (isWS c && isWS d) = true
      · rw [show squeeze (c :: d :: rest) = squeeze (d :: rest) by
          simp only [squeeze, hw, if_true]]
        exact ih
      · rw [show squeeze (c :: d :: rest) =
            (if isWS c then ' ' else c) :: squeeze (d :: rest) by
          simp only [squeeze, Bool.not_eq_true] at hw ⊢
          rw [hw]; simp]
        intro h
        rcases occursIn_cons_iff.mp h with ⟨t, ht⟩ | h'
        · have h1 : (if isWS c then ' ' else c) = ' ' := by
            simpa using congrArg (List.headD · 'x') ht
          have h2 : squeeze (d :: rest) = ' ' :: t := by
            simpa using congrArg List.tail ht
          have hcw : isWS c = true := by
            by_cases hc : isWS c = true
            · exact hc
            · exfalso
              rw [if_neg hc] at h1
              rw [h1] at hc
              exact hc (by decide)
          have hdw : isWS d = false := by
            cases hd : isWS d
            · rfl
            · exfalso
              rw [hcw, hd] at hw
              exact hw rfl
          obtain ⟨tl, htl⟩ := squeeze_head hdw rest
          rw [htl] at h2
          have : d = ' ' := by simpa using congrArg (List.headD · 'x') h2
          rw [this] at hdw
          exact absurd hdw (by decide)
        · exact ih h'

theorem nice_squeeze (l : List Char) : Nice (squeeze l) := by
  refine ⟨squeeze_wsOnly l, ?_⟩
  cases hcs : containsSub [' ', ' '] (squeeze l)
  · rfl
  · exact absurd (containsSub_iff.mp hcs) (squeeze_noDbl l)

theorem nice_normalizeChars (l : List Char) : Nice (normalizeChars l) :=
  nice_of_occursIn (nice_squeeze l) (occursIn_trimWS _)

/-- `squeeze` is the identity on `Nice` lists. -/
theorem squeeze_fix : ∀ l : List Char, Nice l → squeeze l = l := by
  intro l
  induction l with
  | nil => intro _; rfl
  | cons c cs ih =>
    intro hn
    have hc : isWS c = true → c = ' ' := by
      intro hw
      have := List.all_eq_true.mp hn.1 c (by simp)
      rw [hw] at this
      simpa using this
    cases cs with
    | nil =>
      show [if isWS c then ' ' else c] = [c]
      by_cases hw : isWS c = true
      · rw [if_pos hw, hc hw]
      · rw [if_neg hw]
    | cons d rest =>
      have htail : Nice (d :: rest) := nice_of_occursIn hn ⟨[c], [], by simp⟩
      have hd : isWS d = true → d = ' ' := by
        intro hw
        have := List.all_eq_true.mp hn.1 d (by simp)
        rw [hw] at this
        simpa using this
      have hw : (isWS c && isWS d) = false := by
        cases h1 : isWS c
        · rfl
        · cases h2 : isWS d
          · rfl
          · exfalso
            have hpair : OccursIn [' ', ' '] (c :: d :: rest) := by
              rw [hc h1, hd h2]
              exact ⟨[], rest, rfl⟩
            have h3 := hn.2
            rw [containsSub_iff.mpr hpair] at h3
            simp at h3
      rw [show squeeze (c :: d :: rest) =
          (if isWS c then ' ' else c) :: squeeze (d :: rest) by
        simp only [squeeze, hw, Bool.false_eq_true, if_false]]
      rw [ih htail]
      by_cases h1 : isWS c = true
      · rw [if_pos h1, hc h1]
      · rw [if_neg h1]

theorem dropWhile_eq_self_of_head {p : Char → Bool} :
    ∀ {l : List Char}, (∀ c t, l = c :: t → p c = false) → l.dropWhile p = l := by
  intro l h
  cases l with
  | nil => rfl
  | cons c cs =>
    rw [List.dropWhile_cons, h c cs rfl]
    simp

/-- `dropTrailP` is the identity when the last element survives. -/
theorem dropTrailP_eq_self {p : Char → Bool} :
    ∀ l : List Char, (∀ c, l.getLast? = some c → p c = false) → dropTrailP p l = l := by
  intro l
  induction l with
  | nil => intro _; rfl
  | cons c cs ih =>
    intro h
    show (let r := dropTrailP p cs;
      if r.isEmpty then (if p c then [] else [c]) else c :: r) = c :: cs
    cases cs with
    | nil =>
      have hc : p c = false := h c rfl
      simp [dropTrailP, hc]
    | cons d rest =>
      have hcs : dropTrailP p (d :: rest) = d :: rest := by
        apply ih
        intro x hx
        apply h
        rw [List.getLast?_cons_cons]
        exact hx
      rw [hcs]
      simp

theorem mem_of_getLast?_eq : ∀ {l : List Char} {c : Char}, l.getLast? = some c → c ∈ l := by
  intro l
  induction l with
  | nil => intro c h; cases h
  | cons a as ih =>
    intro c h
    cases as with
    | nil =>
      have : a = c := by simpa using h
      rw [this]
      simp
    | cons b bs =>
      rw [List.getLast?_cons_cons] at h
      exact List.mem_cons.mpr (Or.inr (ih h))

theorem nice_head_space {l : List Char} (hn : Nice l) {c : Char} {t : List Char}
    (he : l = c :: t) (hc : c ≠ ' ') : isWS c = false := by
  cases hw : isWS c
  · rfl
  · exfalso
    have := List.all_eq_true.mp hn.1 c (by rw [he]; simp)
    rw [hw] at this
    exact hc (by simpa using this)

/-- `trimWS` fixes `Nice` lists whose ends are not spaces. -/
theorem trimWS_fix {l : List Char} (hn : Nice l)
    (hh : ∀ c t, l = c :: t → c ≠ ' ')
    (hl : ∀ c, l.getLast? = some c → c ≠ ' ') : trimWS l = l := by
  unfold trimWS
  rw [dropWhile_eq_self_of_head (fun c t he => nice_head_space hn he (hh c t he))]
  apply dropTrailP_eq_self
  intro c hc
  cases hw : isWS c
  · rfl
  · exfalso
    have hmem : c ∈ l := mem_of_getLast?_eq hc
    have := List.all_eq_true.mp hn.1 c hmem
    rw [hw] at this
    exact hl c hc (by simpa using this)

/-- `normalizeChars` fixes `Nice` lists whose ends are not spaces. -/
theorem normalizeChars_fix {l : List Char} (hn : Nice l)
    (hh : ∀ c t, l = c :: t → c ≠ ' ')
    (hl : ∀ c, l.getLast? = some c → c ≠ ' ') : normalizeChars l = l := by
  unfold normalizeChars
  rw [squeeze_fix l hn]
  exact trimWS_fix hn hh hl

/-! ### `Nice` is preserved along the whole normaliser pipeline -/

theorem nice_nil : Nice ([] : List Char) := ⟨rfl, rfl⟩

theorem head_dropWhile_false {p : Char → Bool} :
    ∀ {l : List Char} {c : Char} {t : List Char}, l.dropWhile p = c :: t → p c = false := by
  intro l
  induction l with
  | nil => intro c t h; cases h
  | cons x xs ih =>
    intro c t h
    rw [List.dropWhile_cons] at h
    by_cases hx : p x = true
    · rw [if_pos hx] at h
      exact ih h
    · rw [if_neg hx] at h
      have : x = c := by simpa using congrArg (List.headD · 'x') h
      rw [← this]
      simpa using hx

theorem occursIn_stripOrderNowF : ∀ (fuel : Nat) (l : List Char),
    OccursIn (stripOrderNowF fuel l) l := by
  intro fuel
  induction fuel with
  | zero => intro l; exact occursIn_refl l
  | succ fuel ih =>
    intro l
    show OccursIn (if ciStartsWith l orderNowPat then
      stripOrderNowF fuel ((l.drop orderNowPat.length).dropWhile isWS) else l) l
    cases hci : ciStartsWith l orderNowPat
    · simpa using occursIn_refl l
    · simp only [if_true]
      exact occursIn_trans (ih _)
        (occursIn_trans (occursIn_dropWhile _ _) (occursIn_drop _ _))

theorem occursIn_qmarkPromote (t : List Char) : OccursIn (qmarkPromote t) t := by
  unfold qmarkPromote
  by_cases hq : t.contains '?' = true
  · rw [if_pos hq]
    by_cases hlen : 18 ≤ (trimWS ((t.dropWhile (· ≠ '?')).drop 1)).length
    · rw [if_pos hlen]
      exact occursIn_trans (occursIn_trimWS _)
        (occursIn_trans (occursIn_drop _ _) (occursIn_dropWhile _ _))
    · rw [if_neg hlen]
      exact occursIn_refl t
  · rw [if_neg hq]
    exact occursIn_refl t

/-- `removeCoverF` preserves `Nice`, and can only expose a space at the head
if the input already had one. -/
theorem removeCoverF_nice : ∀ (fuel : Nat) (l : List Char), Nice l →
    Nice (removeCoverF fuel l) ∧
      (∀ t, removeCoverF fuel l = ' ' :: t → ∃ t', l = ' ' :: t') := by
  intro fuel
  induction fuel with
  | zero => intro l hn; exact ⟨hn, fun t ht => ⟨t, ht⟩⟩
  | succ fuel ih =>
    intro l hn
    cases l with
    | nil => exact ⟨nice_nil, fun t ht => by cases ht⟩
    | cons c cs =>
      by_cases hci : ciStartsWith (c :: cs) coverPat = true
      · rw [show removeCoverF (fuel+1) (c :: cs) =
            removeCoverF fuel (((c :: cs).drop coverPat.length).dropWhile isWS) by
          show (if ciStartsWith (c :: cs) coverPat then _ else _) = _
          rw [hci]; simp]
        have hnice' : Nice (((c :: cs).drop coverPat.length).dropWhile isWS) :=
          nice_of_occursIn hn
            (occursIn_trans (occursIn_dropWhile _ _) (occursIn_drop _ _))
        obtain ⟨h1, h2⟩ := ih _ hnice'
        refine ⟨h1, fun t ht => ?_⟩
        obtain ⟨t', ht'⟩ := h2 t ht
        have : isWS ' ' = false := head_dropWhile_false ht'
        exact absurd this (by decide)
      · rw [show removeCoverF (fuel+1) (c :: cs) = c :: removeCoverF fuel cs by
          show (if ciStartsWith (c :: cs) coverPat then _ else _) = _
          simp only [Bool.not_eq_true] at hci
          rw [hci]; simp]
        have htail : Nice cs := nice_of_occursIn hn ⟨[c], [], by simp⟩
        obtain ⟨hnr, hrefl⟩ := ih cs htail
        constructor
        · constructor
          · show ((!isWS c || c == ' ') && wsOnlySpace (removeCoverF fuel cs)) = true
            rw [hnr.1, List.all_eq_true.mp hn.1 c (by simp)]
            rfl
          · cases hdb : containsSub [' ', ' '] (c :: removeCoverF fuel cs)
            · rfl
            · exfalso
              rcases occursIn_cons_iff.mp (containsSub_iff.mp hdb) with ⟨t, ht⟩ | h'
              · have hc1 : c = ' ' := by simpa using congrArg (List.headD · 'x') ht
                have hc2 : removeCoverF fuel cs = ' ' :: t := by
                  simpa using congrArg List.tail ht
                obtain ⟨t', ht'⟩ := hrefl t hc2
                have hpair : OccursIn [' ', ' '] (c :: cs) := by
                  rw [hc1, ht']
                  exact ⟨[], t', rfl⟩
                have h3 := hn.2
                rw [containsSub_iff.mpr hpair] at h3
                simp at h3
              · have h3 := hnr.2
                rw [containsSub_iff.mpr h'] at h3
                simp at h3
        · intro t ht
          have hc1 : c = ' ' := by simpa using congrArg (List.headD · 'x') ht
          exact ⟨cs, by rw [hc1]⟩

/-- The pre-bundle pipeline output is `Nice`. -/
theorem nice_preSteps (l : List Char) : Nice (preSteps l) := by
  have n1 : Nice (normalizeChars l) := nice_normalizeChars l
  have n2 : Nice (stripOrderNow (normalizeChars l)) :=
    nice_of_occursIn n1 (occursIn_stripOrderNowF _ _)
  have n3 : Nice (removeCover (stripOrderNow (normalizeChars l))) :=
    (removeCoverF_nice _ _ n2).1
  exact nice_of_occursIn n3 (occursIn_qmarkPromote _)

/-- `splitBBAux` returns a prefix of its input. -/
theorem splitBBAux_append : ∀ (l : List Char) (pv : Bool), ∃ v, l = splitBBAux pv l ++ v := by
  intro l
  induction l with
  | nil => intro pv; exact ⟨[], rfl⟩
  | cons c cs ih =>
    intro pv
    show ∃ v, c :: cs =
      (if !pv && kwMatchAt (c :: cs) then [] else c :: splitBBAux (isWordChar c) cs) ++ v
    by_cases hm : (!pv && kwMatchAt (c :: cs)) = true
    · exact ⟨c :: cs, by rw [if_pos hm]; rfl⟩
    · obtain ⟨v, hv⟩ := ih (isWordChar c)
      refine ⟨v, ?_⟩
      rw [if_neg hm, List.cons_append, ← hv]

theorem occursIn_splitBB (l : List Char) : OccursIn (splitBB l) l := by
  obtain ⟨v, hv⟩ := splitBBAux_append l false
  exact ⟨[], v, by simpa using hv⟩

theorem occursIn_stripSet (l : List Char) : OccursIn (stripSet l) l :=
  occursIn_trans (occursIn_dropTrailP _ _) (occursIn_dropWhile _ l)

/-! ### Identity of the rewrite steps on match-free text -/

theorem stripOrderNowF_id {l : List Char} (h : ciStartsWith l orderNowPat = false) :
    ∀ fuel, stripOrderNowF fuel l = l := by
  intro fuel
  cases fuel with
  | zero => rfl
  | succ fuel =>
    show (if ciStartsWith l orderNowPat then _ else l) = l
    rw [h]
    simp

theorem removeCoverF_id : ∀ (fuel : Nat) (l : List Char),
    containsSub coverPat (l.map Char.toLower) = false → removeCoverF fuel l = l := by
  intro fuel
  induction fuel with
  | zero => intro l _; rfl
  | succ fuel ih =>
    intro l h
    cases l with
    | nil => rfl
    | cons c cs =>
      have hsplit : containsSub coverPat ((c :: cs).map Char.toLower) =
          (coverPat.isPrefixOf (Char.toLower c :: cs.map Char.toLower) ||
            containsSub coverPat (cs.map Char.toLower)) := by
        rw [List.map_cons]
        rfl
      rw [hsplit] at h
      have h1 : coverPat.isPrefixOf (Char.toLower c :: cs.map Char.toLower) = false :=
        (Bool.or_eq_false_iff.mp h).1
      have h2 : containsSub coverPat (cs.map Char.toLower) = false :=
        (Bool.or_eq_false_iff.mp h).2
      have hci : ciStartsWith (c :: cs) coverPat = false := by
        unfold ciStartsWith
        rw [List.map_cons]
        exact h1
      show (if ciStartsWith (c :: cs) coverPat then _ else c :: removeCoverF fuel cs) = c :: cs
      rw [hci]
      simp only [Bool.false_eq_true, if_false]
      rw [ih cs h2]

theorem splitBBAux_id : ∀ (l : List Char) (pv : Bool),
    hasBBAux pv l = false → splitBBAux pv l = l := by
  intro l
  induction l with
  | nil => intro pv _; rfl
  | cons c cs ih =>
    intro pv h
    have hsplit : hasBBAux pv (c :: cs) =
        ((!pv && kwMatchAt (c :: cs)) || hasBBAux (isWordChar c) cs) := rfl
    rw [hsplit] at h
    have h1 := (Bool.or_eq_false_iff.mp h).1
    have h2 := (Bool.or_eq_false_iff.mp h).2
    show (if !pv && kwMatchAt (c :: cs) then [] else c :: splitBBAux (isWordChar c) cs) = c :: cs
    rw [h1]
    simp only [Bool.false_eq_true, if_false]
    rw [ih (isWordChar c) h2]

/-! ### End characters of the normaliser output -/

theorem dropTrailP_last {p : Char → Bool} :
    ∀ {l : List Char} {c : Char}, (dropTrailP p l).getLast? = some c → p c = false := by
  intro l
  induction l with
  | nil => intro c h; cases h
  | cons x xs ih =>
    intro c h
    rw [show dropTrailP p (x :: xs) = (let r := dropTrailP p xs;
      if r.isEmpty then (if p x then [] else [x]) else x :: r) from rfl] at h
    cases hr : (dropTrailP p xs).isEmpty
    · simp only [hr, Bool.false_eq_true, if_false] at h
      rcases he : dropTrailP p xs with _ | ⟨d, ds⟩
      · rw [he] at hr; cases hr
      · rw [he, List.getLast?_cons_cons] at h
        apply ih
        rw [he]
        exact h
    · simp only [hr, if_true] at h
      by_cases hx : p x = true
      · rw [if_pos hx] at h; cases h
      · rw [if_neg hx] at h
        have : x = c := by simpa using h
        rw [← this]
        simpa using hx

/-! ### Assembly of the idempotence theorem -/

theorem map_occursIn {f : Char → Char} {m l : List Char} (h : OccursIn m l) :
    OccursIn (m.map f) (l.map f) := by
  obtain ⟨u, v, rfl⟩ := h
  exact ⟨u.map f, v.map f, by simp⟩

theorem containsSub_mono_true {pat m l : List Char} (hc : containsSub pat m = true)
    (ho : OccursIn m l) : containsSub pat l = true :=
  containsSub_iff.mpr (occursIn_trans (containsSub_iff.mp hc) ho)

theorem containsSub_mono_false {pat m l : List Char} (h : containsSub pat l = false)
    (ho : OccursIn m l) : containsSub pat m = false := by
  cases hc : containsSub pat m
  · rfl
  · rw [containsSub_mono_true hc ho] at h
    cases h

theorem bundleCond_mono_false {m l : List Char} (h : bundleCond l = false)
    (ho : OccursIn m l) : bundleCond m = false := by
  unfold bundleCond at h ⊢
  have h1 := (Bool.or_eq_false_iff.mp h).1
  have h2 := (Bool.or_eq_false_iff.mp h).2
  rw [containsSub_mono_false h1 (map_occursIn ho)]
  simp only [Bool.false_or]
  cases hc4 : containsSub "$4".data m
  · simp
  · cases hc6 : containsSub "$6".data m
    · simp
    · cases hc8 : containsSub "$8".data m
      · simp
      · rw [containsSub_mono_true hc4 ho, containsSub_mono_true hc6 ho,
          containsSub_mono_true hc8 ho] at h2
        cases h2

theorem cleanChars_else {l : List Char} (h : bundleCond (preSteps l) = false) :
    cleanChars l =
      (if 90 < (stripSet (trimWS (splitBB (preSteps l)))).length then
        dropTrailP inStrip ((stripSet (trimWS (splitBB (preSteps l)))).take 90)
      else stripSet (trimWS (splitBB (preSteps l)))) := by
  show (let t := preSteps l;
    if bundleCond t then bundleTitle.data
    else
      let t := trimWS (splitBB t)
      let t := stripSet t
      if 90 < t.length then dropTrailP inStrip (t.take 90) else t) = _
  simp only [h, Bool.false_eq_true, if_false]

theorem dropTrailP_length_le (p : Char → Bool) (l : List Char) :
    (dropTrailP p l).length ≤ l.length := by
  obtain ⟨v, hv⟩ := dropTrailP_append p l
  have := congrArg List.length hv
  simp only [List.length_append] at this
  omega

theorem cleanChars_len_le {l : List Char} (h : bundleCond (preSteps l) = false) :
    (cleanChars l).length ≤ 90 := by
  rw [cleanChars_else h]
  by_cases h90 : 90 < (stripSet (trimWS (splitBB (preSteps l)))).length
  · rw [if_pos h90]
    have h1 := dropTrailP_length_le inStrip ((stripSet (trimWS (splitBB (preSteps l)))).take 90)
    have h2 : ((stripSet (trimWS (splitBB (preSteps l)))).take 90).length ≤ 90 := by
      simp
    omega
  · rw [if_neg h90]
    omega

theorem occursIn_cleanChars {l : List Char} (h : bundleCond (preSteps l) = false) :
    OccursIn (cleanChars l) (preSteps l) := by
  rw [cleanChars_else h]
  have hT : OccursIn (stripSet (trimWS (splitBB (preSteps l)))) (preSteps l) :=
    occursIn_trans (occursIn_stripSet _)
      (occursIn_trans (occursIn_trimWS _) (occursIn_splitBB _))
  by_cases h90 : 90 < (stripSet (trimWS (splitBB (preSteps l)))).length
  · rw [if_pos h90]
    exact occursIn_trans (occursIn_trans (occursIn_dropTrailP _ _) (occursIn_take _ _)) hT
  · rw [if_neg h90]
    exact hT

theorem nice_cleanChars {l : List Char} (h : bundleCond (preSteps l) = false) :
    Nice (cleanChars l) :=
  nice_of_occursIn (nice_preSteps l) (occursIn_cleanChars h)

theorem bundleCond_cleanChars {l : List Char} (h : bundleCond (preSteps l) = false) :
    bundleCond (cleanChars l) = false :=
  bundleCond_mono_false h (occursIn_cleanChars h)

theorem take_head {l : List Char} {n : Nat} {c : Char} {t : List Char}
    (h : l.take n = c :: t) : ∃ t', l = c :: t' := by
  cases n with
  | zero => cases h
  | succ n =>
    cases l with
    | nil => cases h
    | cons x xs =>
      rw [List.take_succ_cons] at h
      have : x = c := by simpa using congrArg (List.headD · 'x') h
      exact ⟨xs, by rw [this]⟩

theorem dropTrailP_head_char {p : Char → Bool} {l : List Char} {c : Char} {t : List Char}
    (h : dropTrailP p l = c :: t) : ∃ t', l = c :: t' := by
  obtain ⟨v, hv⟩ := dropTrailP_append p l
  rw [h] at hv
  exact ⟨t ++ v, by simpa using hv⟩

theorem stripSet_head {l : List Char} {c : Char} {t : List Char}
    (h : stripSet l = c :: t) : inStrip c = false := by
  unfold stripSet at h
  obtain ⟨t', ht'⟩ := dropTrailP_head_char h
  exact head_dropWhile_false ht'

theorem stripSet_last {l : List Char} {c : Char}
    (h : (stripSet l).getLast? = some c) : inStrip c = false := by
  unfold stripSet at h
  exact dropTrailP_last h

theorem cleanChars_head {l : List Char} (hb : bundleCond (preSteps l) = false)
    {c : Char} {t : List Char} (h : cleanChars l = c :: t) : inStrip c = false := by
  rw [cleanChars_else hb] at h
  by_cases h90 : 90 < (stripSet (trimWS (splitBB (preSteps l)))).length
  · rw [if_pos h90] at h
    obtain ⟨t1, ht1⟩ := dropTrailP_head_char h
    obtain ⟨t2, ht2⟩ := take_head ht1
    exact stripSet_head ht2
  · rw [if_neg h90] at h
    exact stripSet_head h

theorem cleanChars_last {l : List Char} (hb : bundleCond (preSteps l) = false)
    {c : Char} (h : (cleanChars l).getLast? = some c) : inStrip c = false := by
  rw [cleanChars_else hb] at h
  by_cases h90 : 90 < (stripSet (trimWS (splitBB (preSteps l)))).length
  · rw [if_pos h90] at h
    exact dropTrailP_last h
  · rw [if_neg h90] at h
    exact stripSet_last h

/-- C7 amended: the Title Normalizer is idempotent on inputs that do not
trigger the bundle special case and whose output is free of the triggers of
the early rewrite steps: it contains no `?`, does not start
(case-insensitively) with "order now", contains no occurrence of
"cover all cravings" (case-insensitively), and contains no word-bounded
boilerplate keyword. -/
theorem clean_title_idempotent_amended (s : String)
    (hb : triggersBundle s = false)
    (h1 : (clean_wendys_title s).data.contains '?' = false)
    (h2 : ciStartsWith (clean_wendys_title s).data orderNowPat = false)
    (h3 : containsSub coverPat ((clean_wendys_title s).data.map Char.toLower) = false)
    (h4 : hasBB (clean_wendys_title s).data = false) :
    clean_wendys_title (clean_wendys_title s) = clean_wendys_title s := by
  have hbb : bundleCond (preSteps s.data) = false := hb
  have hy1 : (clean_wendys_title s).data = cleanChars s.data := rfl
  rw [hy1] at h1 h2 h3 h4
  have hNice : Nice (cleanChars s.data) := nice_cleanChars hbb
  have hHead : ∀ c t, cleanChars s.data = c :: t → inStrip c = false :=
    fun c t h => cleanChars_head hbb h
  have hLast : ∀ c, (cleanChars s.data).getLast? = some c → inStrip c = false :=
    fun c h => cleanChars_last hbb h
  have hL90 : (cleanChars s.data).length ≤ 90 := cleanChars_len_le hbb
  have hBC : bundleCond (cleanChars s.data) = false := bundleCond_cleanChars hbb
  have hh' : ∀ c t, cleanChars s.data = c :: t → c ≠ ' ' := by
    intro c t h he
    have hs := hHead c t h
    rw [he] at hs
    exact absurd hs (by decide)
  have hl' : ∀ c, (cleanChars s.data).getLast? = some c → c ≠ ' ' := by
    intro c h he
    have hs := hLast c h
    rw [he] at hs
    exact absurd hs (by decide)
  have hnorm : normalizeChars (cleanChars s.data) = cleanChars s.data :=
    normalizeChars_fix hNice hh' hl'
  have hson : stripOrderNow (cleanChars s.data) = cleanChars s.data :=
    stripOrderNowF_id h2 _
  have hrc : removeCover (cleanChars s.data) = cleanChars s.data :=
    removeCoverF_id _ _ h3
  have hqm : qmarkPromote (cleanChars s.data) = cleanChars s.data := by
    apply qmarkPromote_of_no_qmark
    intro hm
    rw [contains_eq_true_iff.mpr hm] at h1
    cases h1
  have hpre : preSteps (cleanChars s.data) = cleanChars s.data := by
    unfold preSteps
    rw [hnorm, hson, hrc, hqm]
  have hbc2 : bundleCond (preSteps (cleanChars s.data)) = false := by
    rw [hpre]
    exact hBC
  have hsp : splitBB (cleanChars s.data) = cleanChars s.data := splitBBAux_id _ false h4
  have htr : trimWS (cleanChars s.data) = cleanChars s.data := trimWS_fix hNice hh' hl'
  have hss : stripSet (cleanChars s.data) = cleanChars s.data := by
    unfold stripSet
    rw [dropWhile_eq_self_of_head (fun c t he => hHead c t he)]
    exact dropTrailP_eq_self _ hLast
  have hfix : cleanChars (cleanChars s.data) = cleanChars s.data := by
    rw [cleanChars_else hbc2, hpre, hsp, htr, hss]
    rw [if_neg (by omega)]
  show String.mk (cleanChars (cleanChars s.data)) = String.mk (cleanChars s.data)
  rw [hfix]

/-- Witness for the amended C7 at a concrete phrase. -/
theorem clean_title_idempotent_amended_witness :
    clean_wendys_title (clean_wendys_title "Order Now Get the Biggie Bag for just $5 today") =
      clean_wendys_title "Order Now Get the Biggie Bag for just $5 today" :=
  clean_title_idempotent_amended "Order Now Get the Biggie Bag for just $5 today"
    (by decide) (by decide) (by decide) (by decide) (by decide)

/-- C7 counterexample: this input does not trigger the bundle special case,
yet the normaliser is not idempotent on it — each pass strips one more
leading question mark via the question-mark promotion. -/
theorem clean_title_idempotent_cex :
    triggersBundle "??abcdefgh $4 abcdefghij" = false ∧
    clean_wendys_title (clean_wendys_title "??abcdefgh $4 abcdefghij") ≠
      clean_wendys_title "??abcdefgh $4 abcdefghij" :=
  ⟨by decide, by decide⟩

theorem lastTokSplit_spec : ∀ {l b a : List Char}, lastTokSplit l = some (b, a) →
    l = b ++ '$' :: a ∧ ∃ d t, a = d :: t ∧ d.isDigit = true := by
  intro l
  induction l with
  | nil => intro b a h; cases h
  | cons c cs ih =>
    intro b a h
    show c :: cs = b ++ '$' :: a ∧ _
    rcases hr : lastTokSplit cs with _ | ⟨b', a'⟩
    · rw [show lastTokSplit (c :: cs) = (if c = '$' && (cs.headD ' ').isDigit
          then some ([], cs) else none) by
        show (match lastTokSplit cs with
          | some (b, a) => some (c :: b, a)
          | none => if c = '$' && (cs.headD ' ').isDigit then some ([], cs) else none) = _
        rw [hr]] at h
      by_cases hcond : (c = '$' && (cs.headD ' ').isDigit) = true
      · rw [if_pos hcond] at h
        have hb : b = [] ∧ a = cs := by
          have h1 := h
          injection h1 with h2
          injection h2 with h3 h4
          exact ⟨h3.symm, h4.symm⟩
        obtain ⟨rfl, rfl⟩ := hb
        rw [Bool.and_eq_true] at hcond
        have hc : c = '$' := by
          have := hcond.1
          simpa using this
        have hd : (a.headD ' ').isDigit = true := hcond.2
        constructor
        · rw [hc]; rfl
        · cases a with
          | nil => exact absurd hd (by decide)
          | cons d t => exact ⟨d, t, rfl, by simpa using hd⟩
      · rw [if_neg hcond] at h
        cases h
    · rw [show lastTokSplit (c :: cs) = some (c :: b', a') by
        show (match lastTokSplit cs with
          | some (b, a) => some (c :: b, a)
          | none => if c = '$' && (cs.headD ' ').isDigit then some ([], cs) else none) = _
        rw [hr]] at h
      have hb : b = c :: b' ∧ a = a' := by
        injection h with h2
        injection h2 with h3 h4
        exact ⟨h3.symm, h4.symm⟩
      obtain ⟨rfl, rfl⟩ := hb
      obtain ⟨h5, h6⟩ := ih hr
      exact ⟨by rw [List.cons_append, ← h5], h6⟩

theorem hasMoneyTok_intro : ∀ (b : List Char) (d : Char) (t : List Char),
    d.isDigit = true → hasMoneyTok (b ++ '$' :: d :: t) = true := by
  intro b
  induction b with
  | nil =>
    intro d t hd
    show ((('$' : Char) = '$' && d.isDigit) || hasMoneyTok (d :: t)) = true
    rw [hd]
    simp
  | cons x b' ih =>
    intro d t hd
    have hne : b' ++ '$' :: d :: t ≠ [] := by
      intro hc
      rcases List.append_eq_nil.mp hc with ⟨_, h2⟩
      cases h2
    rcases he : b' ++ '$' :: d :: t with _ | ⟨y, ys⟩
    · exact absurd he hne
    · show hasMoneyTok (x :: (b' ++ '$' :: d :: t)) = true
      rw [he]
      show ((x = '$' && y.isDigit) || hasMoneyTok (y :: ys)) = true
      have hrec := ih d t hd
      rw [he] at hrec
      rw [hrec]
      simp

theorem hasMoneyTok_append_right : ∀ (l x : List Char),
    hasMoneyTok l = true → hasMoneyTok (l ++ x) = true := by
  intro l
  induction l with
  | nil => intro x h; cases h
  | cons a as ih =>
    intro x h
    cases as with
    | nil => cases h
    | cons b r =>
      have hsplit : hasMoneyTok (a :: b :: r) =
          ((a = '$' && b.isDigit) || hasMoneyTok (b :: r)) := rfl
      rw [hsplit, Bool.or_eq_true] at h
      show ((a = '$' && b.isDigit) || hasMoneyTok (b :: (r ++ x))) = true
      rcases h with h1 | h1
      · rw [h1]; rfl
      · have := ih x h1
        rw [show (b :: r) ++ x = b :: (r ++ x) from rfl] at this
        rw [this]
        simp

/-- Every match returned by the findall embedding contains a price token. -/
theorem findallF_hasMoneyTok : ∀ (fuel : Nat) (l : List Char) (m : List Char),
    m ∈ findallF fuel l → hasMoneyTok m = true := by
  intro fuel
  induction fuel with
  | zero => intro l m h; cases h
  | succ fuel ih =>
    intro l m h
    unfold findallF at h
    simp only [] at h
    split at h
    · split at h
      · cases h
      · exact ih _ m h
    · rename_i b a hsplit
      obtain ⟨hruns, d, t, hdt, hdig⟩ := lastTokSplit_spec hsplit
      have hrtok : hasMoneyTok (l.takeWhile (· ≠ '.')) = true := by
        rw [hruns, hdt]
        exact hasMoneyTok_intro b d t hdig
      split at h
      · have hm := List.mem_singleton.mp h
        rw [hm]
        exact hrtok
      · split at h
        · rcases List.mem_cons.mp h with h1 | h1
          · rw [h1]
            exact hasMoneyTok_append_right _ _ hrtok
          · exact ih _ m h1
        · rcases List.mem_cons.mp h with h1 | h1
          · rw [h1]; exact hrtok
          · exact ih _ m h1

/-- `hasMoneyTok` is the presence of a `$`-digit pair. -/
theorem hasMoneyTok_iff : ∀ {l : List Char},
    hasMoneyTok l = true ↔ ∃ d, d.isDigit = true ∧ OccursIn ['$', d] l := by
  intro l
  induction l with
  | nil =>
    constructor
    · intro h; cases h
    · rintro ⟨d, _, h⟩
      exact absurd rfl (occursIn_nonempty (by simp) h)
  | cons a as ih =>
    cases as with
    | nil =>
      constructor
      · intro h; cases h
      · rintro ⟨d, _, h⟩
        have := occursIn_length_le h
        simp at this
    | cons b r =>
      have hsplit : hasMoneyTok (a :: b :: r) =
          ((a = '$' && b.isDigit) || hasMoneyTok (b :: r)) := rfl
      rw [hsplit, Bool.or_eq_true, ih]
      constructor
      · rintro (h1 | ⟨d, hd, ho⟩)
        · rw [Bool.and_eq_true] at h1
          refine ⟨b, h1.2, [], r, ?_⟩
          have ha : a = '$' := by simpa using h1.1
          rw [ha]
          rfl
        · exact ⟨d, hd, occursIn_cons a ho⟩
      · rintro ⟨d, hd, ho⟩
        rcases occursIn_cons_iff.mp ho with ⟨t, ht⟩ | h'
        · have h1 : a = '$' := by simpa using congrArg (List.headD · 'x') ht
          have h2 : b :: r = d :: t := by simpa using congrArg List.tail ht
          have h3 : b = d := by simpa using congrArg (List.headD · 'x') h2
          refine Or.inl ?_
          rw [h1, h3, hd]
          simp
        · exact Or.inr ⟨d, hd, h'⟩

theorem hasMoneyTok_normalize {l : List Char} (h : hasMoneyTok l = true) :
    hasMoneyTok (normalizeChars l) = true := by
  obtain ⟨d, hd, ho⟩ := hasMoneyTok_iff.mp h
  exact hasMoneyTok_iff.mpr ⟨d, hd, occursPair_normalize (by decide) (digit_not_ws d hd) ho⟩

/-! ### Properties of the first-occurrence dedup -/

theorem dedupFirstAux_sublist : ∀ (l : List (List Char)) (seen : List (List Char)),
    List.Sublist (dedupFirstAux seen l) l := by
  intro l
  induction l with
  | nil => intro seen; exact List.Sublist.refl []
  | cons x xs ih =>
    intro seen
    show List.Sublist (if x ∈ seen then dedupFirstAux seen xs
      else x :: dedupFirstAux (x :: seen) xs) (x :: xs)
    by_cases hm : x ∈ seen
    · rw [if_pos hm]
      exact List.Sublist.cons x (ih seen)
    · rw [if_neg hm]
      exact List.Sublist.cons₂ x (ih (x :: seen))

theorem dedupFirstAux_mem : ∀ (l seen : List (List Char)) (x : List Char),
    x ∈ dedupFirstAux seen l ↔ x ∈ l ∧ x ∉ seen := by
  intro l
  induction l with
  | nil => intro seen x; simp [dedupFirstAux]
  | cons y ys ih =>
    intro seen x
    show x ∈ (if y ∈ seen then dedupFirstAux seen ys
      else y :: dedupFirstAux (y :: seen) ys) ↔ _
    by_cases hm : y ∈ seen
    · rw [if_pos hm, ih seen x]
      constructor
      · rintro ⟨h1, h2⟩
        exact ⟨List.mem_cons.mpr (Or.inr h1), h2⟩
      · rintro ⟨h1, h2⟩
        rcases List.mem_cons.mp h1 with h3 | h3
        · rw [h3] at h2; exact absurd hm h2
        · exact ⟨h3, h2⟩
    · rw [if_neg hm]
      constructor
      · intro h
        rcases List.mem_cons.mp h with h1 | h1
        · rw [h1]
          exact ⟨by simp, hm⟩
        · obtain ⟨h2, h3⟩ := (ih (y :: seen) x).mp h1
          refine ⟨List.mem_cons.mpr (Or.inr h2), ?_⟩
          intro hc
          exact h3 (List.mem_cons.mpr (Or.inr hc))
      · rintro ⟨h1, h2⟩
        rcases List.mem_cons.mp h1 with h3 | h3
        · rw [h3]; simp
        · by_cases hxy : x = y
          · rw [hxy]; simp
          · refine List.mem_cons.mpr (Or.inr ((ih (y :: seen) x).mpr ⟨h3, ?_⟩))
            intro hc
            rcases List.mem_cons.mp hc with h4 | h4
            · exact hxy h4
            · exact h2 h4

theorem dedupFirstAux_nodup : ∀ (l seen : List (List Char)),
    (dedupFirstAux seen l).Nodup := by
  intro l
  induction l with
  | nil => intro seen; exact List.nodup_nil
  | cons x xs ih =>
    intro seen
    show (if x ∈ seen then dedupFirstAux seen xs
      else x :: dedupFirstAux (x :: seen) xs).Nodup
    by_cases hm : x ∈ seen
    · rw [if_pos hm]; exact ih seen
    · rw [if_neg hm]
      refine List.nodup_cons.mpr ⟨?_, ih (x :: seen)⟩
      intro hc
      have := (dedupFirstAux_mem xs (x :: seen) x).mp hc
      exact this.2 (by simp)

theorem firstIdx_cons_self (a : List Char) (l : List (List Char)) :
    firstIdx a (a :: l) = 0 := by
  show (if a = a then 0 else firstIdx a l + 1) = 0
  rw [if_pos rfl]

theorem firstIdx_cons_ne {a x : List Char} (l : List (List Char)) (h : x ≠ a) :
    firstIdx a (x :: l) = firstIdx a l + 1 := by
  show (if x = a then 0 else firstIdx a l + 1) = _
  rw [if_neg h]

theorem dedupFirstAux_firstSeen : ∀ (l seen : List (List Char)),
    List.Pairwise (fun a b => firstIdx a l < firstIdx b l) (dedupFirstAux seen l) := by
  intro l
  induction l with
  | nil => intro seen; exact List.Pairwise.nil
  | cons x xs ih =>
    intro seen
    show List.Pairwise _ (if x ∈ seen then dedupFirstAux seen xs
      else x :: dedupFirstAux (x :: seen) xs)
    by_cases hm : x ∈ seen
    · rw [if_pos hm]
      apply List.Pairwise.imp_of_mem ?_ (ih seen)
      intro a b ha hb hab
      have hax : a ≠ x := by
        intro hc
        exact ((dedupFirstAux_mem xs seen a).mp ha).2 (hc ▸ hm)
      have hbx : b ≠ x := by
        intro hc
        exact ((dedupFirstAux_mem xs seen b).mp hb).2 (hc ▸ hm)
      rw [firstIdx_cons_ne _ (Ne.symm hax), firstIdx_cons_ne _ (Ne.symm hbx)]
      omega
    · rw [if_neg hm]
      refine List.Pairwise.cons ?_ ?_
      · intro b hb
        have hbx : b ≠ x := by
          intro hc
          exact ((dedupFirstAux_mem xs (x :: seen) b).mp hb).2 (by rw [hc]; simp)
        rw [firstIdx_cons_self, firstIdx_cons_ne _ (Ne.symm hbx)]
        omega
      · apply List.Pairwise.imp_of_mem ?_ (ih (x :: seen))
        intro a b ha hb hab
        have hax : a ≠ x := by
          intro hc
          exact ((dedupFirstAux_mem xs (x :: seen) a).mp ha).2 (by rw [hc]; simp)
        have hbx : b ≠ x := by
          intro hc
          exact ((dedupFirstAux_mem xs (x :: seen) b).mp hb).2 (by rw [hc]; simp)
        rw [firstIdx_cons_ne _ (Ne.symm hax), firstIdx_cons_ne _ (Ne.symm hbx)]
        omega

/-- C9: every extracted phrase has (normalised) length in `[20, 220]` and
contains a price token; the output has no duplicates, is a sublist of the
filtered candidates (so relative order is preserved), contains every
candidate, and lists phrases in order of first occurrence. -/
theorem extract_price_phrases_spec :
    (∀ (text : String) (p : String), p ∈ extract_price_phrases text →
      20 ≤ p.length ∧ p.length ≤ 220 ∧ hasMoneyTok p.data = true) ∧
    (∀ text : String, (extract_price_phrases text).Nodup) ∧
    (∀ text : String,
      List.Sublist (dedupFirstAux [] (cleanedPhrases text)) (cleanedPhrases text)) ∧
    (∀ (text : String) (m : List Char), m ∈ cleanedPhrases text →
      String.mk m ∈ extract_price_phrases text) ∧
    (∀ text : String,
      List.Pairwise (fun a b => firstIdx a (cleanedPhrases text) < firstIdx b (cleanedPhrases text))
        (dedupFirstAux [] (cleanedPhrases text))) := by
  have hclean : ∀ (text : String) (m : List Char), m ∈ cleanedPhrases text →
      20 ≤ m.length ∧ m.length ≤ 220 ∧ hasMoneyTok m = true := by
    intro text m hm
    unfold cleanedPhrases at hm
    obtain ⟨hmem, hpred⟩ := List.mem_filter.mp hm
    obtain ⟨m0, hm0, hm0eq⟩ := List.mem_map.mp hmem
    have htok : hasMoneyTok m0 = true := findallF_hasMoneyTok _ _ _ hm0
    have hnorm : hasMoneyTok m = true := by
      rw [← hm0eq]
      exact hasMoneyTok_normalize htok
    rw [Bool.and_eq_true] at hpred
    refine ⟨by simpa using hpred.1, by simpa using hpred.2, hnorm⟩
  refine ⟨?_, ?_, ?_, ?_, ?_⟩
  · intro text p hp
    obtain ⟨m, hm, hmeq⟩ := List.mem_map.mp hp
    have hm' : m ∈ cleanedPhrases text :=
      ((dedupFirstAux_mem _ _ m).mp hm).1
    obtain ⟨h1, h2, h3⟩ := hclean text m hm'
    rw [← hmeq]
    exact ⟨h1, h2, h3⟩
  · intro text
    apply List.Nodup.map
    · intro a b hab
      injection hab
    · exact dedupFirstAux_nodup _ _
  · intro text
    exact dedupFirstAux_sublist _ _
  · intro text m hm
    apply List.mem_map.mpr
    refine ⟨m, ?_, rfl⟩
    exact (dedupFirstAux_mem _ _ m).mpr ⟨hm, by simp⟩
  · intro text
    exact dedupFirstAux_firstSeen _ _

/-- Witness for C9 on a concrete page text with two phrases, one repeated
and one too short. -/
theorem extract_price_phrases_spec_witness :
    20 ≤ ("Crispy chicken tenders this week only $5 a meal" : String).length ∧
    ("Crispy chicken tenders this week only $5 a meal" : String).length ≤ 220 ∧
    hasMoneyTok ("Crispy chicken tenders this week only $5 a meal" : String).data = true :=
  extract_price_phrases_spec.1
    "Crispy chicken tenders this week only $5 a meal. Tiny $2. Crispy chicken tenders this week only $5 a meal."
    "Crispy chicken tenders this week only $5 a meal" (by decide)

theorem upsertOne_insert {store : List DealRow} {d : DealInput} {t : String}
    (htitle : ¬ normalize d.title = "")
    (hnew : store.any (fun r =>
      keyMatches r d.restaurant d.market (normalize d.title) d.source_url) = false) :
    upsertOne store d t = (store ++ [⟨d.restaurant, d.market, normalize d.title,
      d.starting_price, d.all_prices, d.source_url, t⟩], 1) := by
  show (let title := normalize d.title;
    if title = "" then (store, 0)
    else if store.any (fun r => keyMatches r d.restaurant d.market title d.source_url) then
      (store, 0)
    else (store ++ [⟨d.restaurant, d.market, title, d.starting_price, d.all_prices,
      d.source_url, t⟩], 1)) = _
  simp only [if_neg htitle, hnew, Bool.false_eq_true, if_false]

theorem upsertOne_dup {store : List DealRow} {d : DealInput} {t : String}
    (htitle : ¬ normalize d.title = "")
    (hdup : store.any (fun r =>
      keyMatches r d.restaurant d.market (normalize d.title) d.source_url) = true) :
    upsertOne store d t = (store, 0) := by
  show (let title := normalize d.title;
    if title = "" then (store, 0)
    else if store.any (fun r => keyMatches r d.restaurant d.market title d.source_url) then
      (store, 0)
    else (store ++ [⟨d.restaurant, d.market, title, d.starting_price, d.all_prices,
      d.source_url, t⟩], 1)) = _
  simp only [if_neg htitle, hdup, if_true]

/-- C5: upserting a deal whose key is not yet stored adds exactly one row;
upserting it again (any later timestamp) reports `added = 0`, leaves the
store — including the stored `created_at` — unchanged, and the row count
grows by exactly one over the two calls. -/
theorem upsert_same_deal_twice (store : List DealRow) (d : DealInput) (t1 t2 : String)
    (htitle : ¬ normalize d.title = "")
    (hnew : store.any (fun r =>
      keyMatches r d.restaurant d.market (normalize d.title) d.source_url) = false) :
    (upsert_deals store [d] t1).2 = 1 ∧
    (upsert_deals (upsert_deals store [d] t1).1 [d] t2).2 = 0 ∧
    (upsert_deals (upsert_deals store [d] t1).1 [d] t2).1 = (upsert_deals store [d] t1).1 ∧
    (upsert_deals store [d] t1).1.length = store.length + 1 := by
  have e1 : upsert_deals store [d] t1 =
      ((upsertOne store d t1).1, 0 + (upsertOne store d t1).2) := rfl
  rw [e1, upsertOne_insert htitle hnew]
  have hdup : (store ++ [(⟨d.restaurant, d.market, normalize d.title, d.starting_price,
      d.all_prices, d.source_url, t1⟩ : DealRow)]).any (fun r =>
        keyMatches r d.restaurant d.market (normalize d.title) d.source_url) = true := by
    rw [List.any_append]
    have hrow : ([(⟨d.restaurant, d.market, normalize d.title, d.starting_price,
        d.all_prices, d.source_url, t1⟩ : DealRow)]).any (fun r =>
          keyMatches r d.restaurant d.market (normalize d.title) d.source_url) = true := by
      show (keyMatches ⟨d.restaurant, d.market, normalize d.title, d.starting_price,
        d.all_prices, d.source_url, t1⟩ d.restaurant d.market (normalize d.title)
          d.source_url || false) = true
      unfold keyMatches
      simp
    rw [hrow]
    simp
  have e2 : upsert_deals (store ++ [(⟨d.restaurant, d.market, normalize d.title,
      d.starting_price, d.all_prices, d.source_url, t1⟩ : DealRow)]) [d] t2 =
      ((upsertOne (store ++ [⟨d.restaurant, d.market, normalize d.title, d.starting_price,
        d.all_prices, d.source_url, t1⟩]) d t2).1,
       0 + (upsertOne (store ++ [⟨d.restaurant, d.market, normalize d.title, d.starting_price,
        d.all_prices, d.source_url, t1⟩]) d t2).2) := rfl
  rw [e2, upsertOne_dup htitle hdup]
  refine ⟨rfl, rfl, rfl, ?_⟩
  simp

/-- Witness for C5 on an initially empty store. -/
theorem upsert_same_deal_twice_witness :
    (upsert_deals [] [⟨"Wendy\x27s", "cleveland-oh", "Biggie Bag deal", none, ["$5"],
      "https://www.wendys.com/mealdeals"⟩] "2026-01-01T00:00:00+00:00").2 = 1 ∧
    (upsert_deals (upsert_deals [] [⟨"Wendy\x27s", "cleveland-oh", "Biggie Bag deal", none,
      ["$5"], "https://www.wendys.com/mealdeals"⟩] "2026-01-01T00:00:00+00:00").1
      [⟨"Wendy\x27s", "cleveland-oh", "Biggie Bag deal", none, ["$5"],
        "https://www.wendys.com/mealdeals"⟩] "2026-01-02T00:00:00+00:00").2 = 0 ∧
    (upsert_deals (upsert_deals [] [⟨"Wendy\x27s", "cleveland-oh", "Biggie Bag deal", none,
      ["$5"], "https://www.wendys.com/mealdeals"⟩] "2026-01-01T00:00:00+00:00").1
      [⟨"Wendy\x27s", "cleveland-oh", "Biggie Bag deal", none, ["$5"],
        "https://www.wendys.com/mealdeals"⟩] "2026-01-02T00:00:00+00:00").1 =
      (upsert_deals [] [⟨"Wendy\x27s", "cleveland-oh", "Biggie Bag deal", none, ["$5"],
        "https://www.wendys.com/mealdeals"⟩] "2026-01-01T00:00:00+00:00").1 ∧
    (upsert_deals [] [⟨"Wendy\x27s", "cleveland-oh", "Biggie Bag deal", none, ["$5"],
      "https://www.wendys.com/mealdeals"⟩] "2026-01-01T00:00:00+00:00").1.length =
      ([] : List DealRow).length + 1 :=
  upsert_same_deal_twice [] ⟨"Wendy\x27s", "cleveland-oh", "Biggie Bag deal", none, ["$5"],
    "https://www.wendys.com/mealdeals"⟩ "2026-01-01T00:00:00+00:00" "2026-01-02T00:00:00+00:00"
    (by decide) (by decide)

/-- C6 amended: the refresh route runs the scrape-then-upsert pipeline on
the store, but its return value is the fixed 303 redirect to the
dashboard, never the count of newly persisted deals. -/
theorem refresh_returns_redirect :
    ∀ (pageText : String) (store : List DealRow) (t : String),
      (refresh_wendys pageText store t).1 = ApiResponse.redirect "/" 303 ∧
      (refresh_wendys pageText store t).2 =
        (upsert_deals store (refresh_wendys_scrape "cleveland-oh" pageText) t).1 ∧
      ∀ n, (refresh_wendys pageText store t).1 ≠ ApiResponse.count n := by
  intro pageText store t
  refine ⟨rfl, rfl, ?_⟩
  intro n h
  exact ApiResponse.noConfusion h

/-- C6 counterexample: on this page text the pipeline persists exactly one
new deal, yet the route's return value is not the count `1` (it is the
redirect). -/
theorem refresh_count_cex :
    (upsert_deals [] (refresh_wendys_scrape "cleveland-oh"
      "Get the Biggie Bag meal deal today for just $5 only now") "t0").2 = 1 ∧
    (refresh_wendys "Get the Biggie Bag meal deal today for just $5 only now" [] "t0").1 ≠
      ApiResponse.count 1 :=
  ⟨by decide, by decide⟩

/-- Known-answer check of the SHA-256 embedding. -/
example : String.mk (sha256hex (utf8Encode "abc".data)) =
    "ba7816bf8f01cfea414140de5dae2223b00361a396177a9cb410ff61f20015ad" := by decide

theorem compressBlock_length (h block : List Nat) : (compressBlock h block).length = 8 := rfl

theorem foldl_compressBlock_length :
    ∀ (cs : List (List Nat)) (h : List Nat), h.length = 8 →
      (cs.foldl compressBlock h).length = 8 := by
  intro cs
  induction cs with
  | nil => intro h hh; simpa using hh
  | cons c cs ih => intro h _; exact ih _ (compressBlock_length h c)

theorem sha256Words_length (bytes : List Nat) : (sha256Words bytes).length = 8 :=
  foldl_compressBlock_length _ _ rfl

theorem toHexFixed_length : ∀ (k n : Nat), (toHexFixed k n).length = k := by
  intro k
  induction k with
  | zero => intro n; rfl
  | succ k ih =>
    intro n
    show (toHexFixed k (n / 16) ++ [hexDigitChar (n % 16)]).length = k + 1
    rw [List.length_append, ih]
    rfl

theorem hexcat_length : ∀ ws : List Nat,
    (ws.foldr (fun w acc => toHexFixed 8 w ++ acc) []).length = 8 * ws.length := by
  intro ws
  induction ws with
  | nil => rfl
  | cons w ws ih =>
    show (toHexFixed 8 w ++ ws.foldr (fun w acc => toHexFixed 8 w ++ acc) []).length = _
    rw [List.length_append, toHexFixed_length, ih]
    simp only [List.length_cons]
    ring

theorem sha256hex_length (bytes : List Nat) : (sha256hex bytes).length = 64 := by
  unfold sha256hex
  rw [hexcat_length, sha256Words_length]

theorem hexDigitChar_mem : ∀ m : Nat, m < 16 → hexDigitChar m ∈ "0123456789abcdef".data := by
  decide

theorem toHexFixed_mem : ∀ (k n : Nat), ∀ c ∈ toHexFixed k n, c ∈ "0123456789abcdef".data := by
  intro k
  induction k with
  | zero => intro n c hc; cases hc
  | succ k ih =>
    intro n c hc
    rcases List.mem_append.mp hc with h1 | h1
    · exact ih (n / 16) c h1
    · rw [List.mem_singleton.mp h1]
      exact hexDigitChar_mem (n % 16) (Nat.mod_lt n (by norm_num))

theorem sha256hex_mem (bytes : List Nat) :
    ∀ c ∈ sha256hex bytes, c ∈ "0123456789abcdef".data := by
  unfold sha256hex
  generalize sha256Words bytes = ws
  induction ws with
  | nil => intro c hc; cases hc
  | cons w ws ih =>
    intro c hc
    rcases List.mem_append.mp hc with h1 | h1
    · exact toHexFixed_mem 8 w c h1
    · exact ih c h1

theorem mem_of_mem_take {c : Char} : ∀ (n : Nat) (l : List Char), c ∈ l.take n → c ∈ l := by
  intro n
  induction n with
  | zero => intro l h; cases h
  | succ n ih =>
    intro l h
    cases l with
    | nil => cases h
    | cons x xs =>
      rw [List.take_succ_cons] at h
      rcases List.mem_cons.mp h with h1 | h1
      · rw [h1]; simp
      · exact List.mem_cons.mpr (Or.inr (ih xs h1))

/-- C8: `make_deal_id` is a function of the lower-cased, trimmed four key
fields only — inputs agreeing on those (so, in particular, differing only in
case, leading/trailing whitespace, or non-key fields) get the same
identifier — and the identifier is always sixteen lower-case hex
characters. -/
theorem make_deal_id_spec :
    (∀ d1 d2 : DealInput,
      pyLower (pyStrip d1.restaurant) = pyLower (pyStrip d2.restaurant) →
      pyLower (pyStrip d1.market) = pyLower (pyStrip d2.market) →
      pyLower (pyStrip d1.title) = pyLower (pyStrip d2.title) →
      pyLower (pyStrip d1.source_url) = pyLower (pyStrip d2.source_url) →
      make_deal_id d1 = make_deal_id d2) ∧
    (∀ d : DealInput, (make_deal_id d).length = 16 ∧
      ∀ c ∈ (make_deal_id d).data, c ∈ "0123456789abcdef".data) := by
  constructor
  · intro d1 d2 h1 h2 h3 h4
    unfold make_deal_id canonicalOf
    rw [h1, h2, h3, h4]
  · intro d
    constructor
    · show ((sha256hex (utf8Encode
        (canonicalOf d.restaurant d.market d.title d.source_url).data)).take 16).length = 16
      rw [List.length_take, sha256hex_length]
      rfl
    · intro c hc
      exact sha256hex_mem _ c (mem_of_mem_take 16 _ hc)

/-- Witness for C8: two deals differing in case, outer whitespace and a
non-key field receive the same identifier. -/
theorem make_deal_id_spec_witness :
    make_deal_id ⟨" WENDYS ", "cleveland-oh", "Biggie Bag", none, [], "https://X.example"⟩ =
    make_deal_id ⟨"wendys", "Cleveland-OH", " biggie bag", some 4, ["$4"],
      "https://x.example"⟩ :=
  make_deal_id_spec.1
    ⟨" WENDYS ", "cleveland-oh", "Biggie Bag", none, [], "https://X.example"⟩
    ⟨"wendys", "Cleveland-OH", " biggie bag", some 4, ["$4"], "https://x.example"⟩
    (by decide) (by decide) (by decide) (by decide)

end DealBite
